import Mathlib

/-!
# Verification of `package_slack_export_with_report.py`

A shallow embedding of the transform-and-reconcile pipeline in
`src/package_slack_export_with_report.py` (function
`package_slack_jsons_with_report`), together with theorems settling the
specification claims about it.

Modelling conventions:
* JSON scalars / Python values are `JPrim`; field values inside a message are
  `JVal` (a scalar, an array of scalars, or an object of scalars — e.g.
  `user_profile`).  This models JSON to the nesting depth the script ever
  inspects; deeper nesting is passed through verbatim by the code and is not
  examined by any claim.
* JSON numbers / Python floats are modelled as rationals (the claims under
  study never depend on binary floating-point rounding).
* Python `dict`s parsed from JSON objects are association lists; lookup takes
  the first binding (duplicate keys inside one JSON object are never
  exercised by any theorem below).
* Exceptions are modelled with `Except` / error flags; state mutated before
  an exception is raised is preserved, as in Python.
* `float(x)` on strings is modelled for plain decimal literals
  (optional sign, digits, optional fractional part); Python additionally
  accepts exponents, `inf`/`nan`, underscores and surrounding whitespace,
  none of which any theorem below exercises.
-/

namespace SlackPkg

/-- JSON scalar values. -/
inductive JPrim where
  | null : JPrim
  | bool : Bool → JPrim
  | num : ℚ → JPrim
  | str : String → JPrim
deriving DecidableEq

/-- A JSON field value: a scalar, an array of scalars, or an object of
scalars (such as `user_profile`). -/
inductive JVal where
  | prim : JPrim → JVal
  | arr : List JPrim → JVal
  | obj : List (String × JPrim) → JVal
deriving DecidableEq

/-- Shorthand for a string value. -/
def jstr (s : String) : JVal := .prim (.str s)

/-- Shorthand for a numeric value. -/
def jnum (q : ℚ) : JVal := .prim (.num q)

/-- Shorthand for `null`. -/
def jnull : JVal := .prim .null

/-- A message: a JSON object, i.e. an association list of fields. -/
abbrev Msg := List (String × JVal)

/-- `m.get(k)`-style lookup returning `none` when the key is absent. -/
def pyGet (m : Msg) (k : String) : Option JVal :=
  (m.find? (fun kv => kv.1 == k)).map (·.2)

/-- `m.get(k, d)`: lookup with default. -/
def pyGetD (m : Msg) (k : String) (d : JVal) : JVal :=
  (pyGet m k).getD d

/-- `k in m` for a dict. -/
def hasKey (m : Msg) (k : String) : Bool :=
  (pyGet m k).isSome

/-- Python truthiness of a value. -/
def truthy : JVal → Bool
  | .prim .null => false
  | .prim (.bool b) => b
  | .prim (.num q) => q != 0
  | .prim (.str s) => s != ""
  | .arr xs => !xs.isEmpty
  | .obj kvs => !kvs.isEmpty

/-- Python hashability: lists and dicts are unhashable (`set.add` raises
`TypeError` on them). -/
def hashable : JVal → Bool
  | .arr _ => false
  | .obj _ => false
  | .prim _ => true

/-- Numeric value of a list of decimal digit characters. -/
def natOfDigits (cs : List Char) : ℕ :=
  cs.foldl (fun n c => 10 * n + (c.toNat - 48)) 0

/-- All characters are decimal digits. -/
def allDigits (cs : List Char) : Bool :=
  cs.all Char.isDigit

/-- `float(s)` on a string: parse a plain decimal literal, `none` meaning a
`ValueError`.  The value is assembled with `mkRat` on integers (rather than
with rational `+`/`*`/`/`) so that it evaluates by kernel reduction. -/
def parseFloat (s : String) : Option ℚ :=
  let cs := s.toList
  let signBody : ℤ × List Char :=
    match cs with
    | '-' :: r => (-1, r)
    | '+' :: r => (1, r)
    | r => (1, r)
  let sign := signBody.1
  let body := signBody.2
  let ip := body.takeWhile (fun c => c != '.')
  let rest := body.dropWhile (fun c => c != '.')
  match rest with
  | [] =>
    if allDigits ip && !ip.isEmpty then
      some (mkRat (sign * (natOfDigits ip : ℤ)) 1)
    else none
  | '.' :: fp =>
    if allDigits ip && allDigits fp && !(ip.isEmpty && fp.isEmpty) then
      some (mkRat (sign * ((natOfDigits ip * 10 ^ fp.length + natOfDigits fp : ℕ) : ℤ))
        (10 ^ fp.length))
    else none
  | _ => none

/-- `float(v)` on an arbitrary value: numbers pass through, bools are 0/1,
strings are parsed; everything else raises (`none`). -/
def pyFloat (v : JVal) : Option ℚ :=
  match v with
  | .prim (.num q) => some q
  | .prim (.bool b) => some (if b then 1 else 0)
  | .prim (.str s) => parseFloat s
  | _ => none

/-- The Python exceptions the script can raise. `noValidMessages` is the
`ValueError("No valid messages found in the JSON files.")` of line 68. -/
inductive PyErr where
  | typeError : PyErr
  | valueError : PyErr
  | attrError : PyErr
  | osError : PyErr
  | noValidMessages : PyErr
deriving DecidableEq

/-- The user record synthesized at lines 41-55.  The nested `"profile"` dict
is flattened into `profile_*` fields. -/
structure User where
  id : JVal
  team_id : JVal
  name : JVal
  deleted : Bool
  real_name : JVal
  profile_first_name : JVal
  profile_last_name : JVal
  profile_real_name : JVal
  profile_display_name : JVal
  profile_image_72 : JVal
  profile_avatar_hash : JVal
deriving DecidableEq

/-- `profile.get(k, '')` on the (dict-valued) `user_profile`. -/
def profGetD (p : List (String × JPrim)) (k : String) : JVal :=
  match p.find? (fun kv => kv.1 == k) with
  | some kv => .prim kv.2
  | none => jstr ""

/-- Build the user dict of lines 41-55 from the message and its profile. -/
def mkUser (m : Msg) (uid : JVal) (p : List (String × JPrim)) : User where
  id := uid
  team_id := pyGetD m "team" (jstr "")
  name := profGetD p "name"
  deleted := false
  real_name := profGetD p "real_name"
  profile_first_name := profGetD p "first_name"
  profile_last_name := jstr ""
  profile_real_name := profGetD p "real_name"
  profile_display_name := profGetD p "display_name"
  profile_image_72 := profGetD p "image_72"
  profile_avatar_hash := profGetD p "avatar_hash"

/-- The running mutable state of the loader loop: `messages`, `users`
(an insertion-ordered dict) and `teams` (a set, represented as a
duplicate-free list; iteration order of the Python set is modelled
separately, see `pyMaxByCount`). -/
structure LoadState where
  messages : List Msg
  users : List (JVal × User)
  teams : List JVal
deriving DecidableEq

/-- Initial state (lines 19-21). -/
def initState : LoadState := ⟨[], [], []⟩

/-- Canonical form of a scalar under Python `==`/`hash`: booleans compare
(and hash) equal to their numeric values (`True == 1`, `False == 0`), and
`1 == 1.0` holds already because numbers are a single rational type here. -/
def canonV : JVal → JVal
  | .prim (.bool b) => .prim (.num (if b then 1 else 0))
  | v => v

/-- Python `==` as used for dict-key and set-element identity. -/
def pyEqV (a b : JVal) : Bool := canonV a == canonV b

/-- `user_id in users` for the user dict: Python key identity (`hash`/`==`),
so `True` and `1` are the same key. -/
def keyMem (users : List (JVal × User)) (k : JVal) : Bool :=
  users.any (fun kv => pyEqV kv.1 k)

/-- `teams.add(v)`: raises `TypeError` on unhashable values, otherwise
inserts the value if no `==`-equal element is already in the set. -/
def setAddChecked (s : List JVal) (v : JVal) : Except PyErr (List JVal) :=
  if hashable v then .ok (if s.any (fun w => pyEqV w v) then s else s ++ [v])
  else .error .typeError

/-- An element of a parsed input array: a scalar, an array, or an object
(a message-shaped mapping). -/
inductive JElem where
  | prim : JPrim → JElem
  | arr : List JPrim → JElem
  | map : Msg → JElem
deriving DecidableEq

/-- Does `needle` occur as a contiguous infix of `hay`? -/
def listHasInfix (needle : List Char) : List Char → Bool
  | [] => needle.isEmpty
  | c :: rest => needle.isPrefixOf (c :: rest) || listHasInfix needle rest

/-- Line 34's acceptance test `'type' in msg and msg['type'] == 'message'`:
`.ok (some m)` when the element is an accepted message, `.ok none` when it
is skipped, `.error` when the test raises (`in` on an unsupported scalar,
or string indexing after a successful substring test). -/
def acceptsElem : JElem → Except PyErr (Option Msg)
  | .map m =>
    .ok (if pyGetD m "type" jnull == jstr "message" then some m else none)
  | .prim (.str s) =>
    if listHasInfix "type".toList s.toList then .error .typeError else .ok none
  | .arr xs =>
    if xs.contains (.str "type") then .error .typeError else .ok none
  | .prim _ => .error .typeError

/-- Lines 38-55: extract user info from an accepted message.  Line 39's
guard evaluates left to right: if `user` is falsy or `user_profile` is
absent, nothing happens; otherwise `user_id not in users` is evaluated,
which raises `TypeError` when the id is unhashable (a list or dict);
with a hashable id not yet in the dict, a non-dict `user_profile` then
raises `AttributeError` at `profile.get`, else the user is inserted. -/
def registerUser (st : LoadState) (m : Msg) : Except PyErr LoadState :=
  if truthy ((pyGet m "user").getD jnull) && hasKey m "user_profile" then
    if hashable ((pyGet m "user").getD jnull) then
      if keyMem st.users ((pyGet m "user").getD jnull) then .ok st
      else
        match pyGetD m "user_profile" jnull with
        | .obj p =>
          .ok { st with users := st.users ++
            [((pyGet m "user").getD jnull, mkUser m ((pyGet m "user").getD jnull) p)] }
        | _ => .error .attrError
    else .error .typeError
  else .ok st

/-- Lines 56-58: the three sequential `teams.add` calls; an unhashable
value raises and the earlier adds are kept. -/
def addTeams (st : LoadState) (m : Msg) : LoadState × Option PyErr :=
  match setAddChecked st.teams (pyGetD m "team" (jstr "")) with
  | .error err => (st, some err)
  | .ok t1 =>
    match setAddChecked t1 (pyGetD m "source_team" (jstr "")) with
    | .error err => ({ st with teams := t1 }, some err)
    | .ok t2 =>
      match setAddChecked t2 (pyGetD m "user_team" (jstr "")) with
      | .error err => ({ st with teams := t2 }, some err)
      | .ok t3 => ({ st with teams := t3 }, none)

/-- Lines 35-58: handle one accepted message — append it, bump the count,
register the user, add the teams; an exception part-way keeps the earlier
mutations. -/
def processAccepted (st : LoadState) (cnt : ℕ) (m : Msg) :
    LoadState × ℕ × Option PyErr :=
  match registerUser { st with messages := st.messages ++ [m] } m with
  | .error err => ({ st with messages := st.messages ++ [m] }, cnt + 1, some err)
  | .ok st2 => ((addTeams st2 m).1, cnt + 1, (addTeams st2 m).2)

/-- Lines 33-58: process one array element.  Returns the state and running
count after the element, plus the exception, if one was raised part-way
(mutations made before the raise are kept, as in Python). -/
def processElem (st : LoadState) (cnt : ℕ) (e : JElem) :
    LoadState × ℕ × Option PyErr :=
  match acceptsElem e with
  | .error err => (st, cnt, some err)
  | .ok none => (st, cnt, none)
  | .ok (some m) => processAccepted st cnt m

/-- The `for msg in data` loop: stops at the first exception. -/
def processElems : LoadState → ℕ → List JElem → LoadState × ℕ × Option PyErr
  | st, cnt, [] => (st, cnt, none)
  | st, cnt, e :: es =>
    match processElem st cnt e with
    | (st', cnt', none) => processElems st' cnt' es
    | (st', cnt', some err) => (st', cnt', some err)

/-- What one input file looks like to the loader: unreadable / bad JSON, a
parsed non-list value, or a parsed list of elements. -/
inductive FileContent where
  | unreadable : FileContent
  | nonList : FileContent
  | list : List JElem → FileContent
deriving DecidableEq

/-- Lines 26-65: load one file against the running state.  Returns the new
state, the count recorded in `input_files_info` (`0` on the warning and on
the exception paths), and the swallowed exception if one occurred. -/
def loadFile (st : LoadState) (fc : FileContent) : LoadState × ℕ × Option PyErr :=
  match fc with
  | .unreadable => (st, 0, some .valueError)
  | .nonList => (st, 0, none)
  | .list es =>
    match processElems st 0 es with
    | (st', cnt, none) => (st', cnt, none)
    | (st', _, some err) => (st', 0, some err)

/-- One row of `input_files_info`, plus the per-file swallowed exception. -/
structure FileResult where
  name : String
  count : ℕ
  err : Option PyErr
deriving DecidableEq

/-- The whole Step-1 loop over the given files (in `os.listdir` order). -/
def loadAll : LoadState → List (String × FileContent) → LoadState × List FileResult
  | st, [] => (st, [])
  | st, (nm, fc) :: rest =>
    let r := loadFile st fc
    let rest' := loadAll r.1 rest
    (rest'.1, ⟨nm, r.2.1, r.2.2⟩ :: rest'.2)

/-- Step 1 of the pipeline, started from the empty state. -/
def loadRun (files : List (String × FileContent)) : LoadState × List FileResult :=
  loadAll initState files

/-- The sort key of line 71: `float(m.get('ts', 0))`.  `none` means the
`float` call raised (an uncaught `ValueError`/`TypeError` aborting the run,
since line 71 sits outside any `try`). -/
def sortKey (m : Msg) : Option ℚ :=
  pyFloat (pyGetD m "ts" (jnum 0))

/-- Compute every sort key (Python's `list.sort(key=...)` evaluates all keys
up front); fails if any key computation raises. -/
def keyedMessages (msgs : List Msg) : Option (List (ℚ × Msg)) :=
  msgs.mapM (fun m => (sortKey m).map (fun q => (q, m)))

/-- 0001-01-01T00:00:00Z, the smallest `datetime`-representable timestamp. -/
def datetimeMinTs : ℤ := -62135596800

/-- 10000-01-01T00:00:00Z, one past the largest representable timestamp. -/
def datetimeMaxTs : ℤ := 253402300800

/-- `datetime.utcfromtimestamp(q)` reduced to its calendar day (days since
the Unix epoch, floored): in range the conversion succeeds; outside the
`datetime` range it raises `ValueError` (caught at line 79); at extreme
magnitudes (beyond the platform bound, here `2 ^ 62` seconds, which safely
exceeds any platform's limit) it raises `OSError`/`OverflowError`, which is
not caught.  The day is `⌊q / 86400⌋`, computed as an integer floor-division
on the numerator/denominator so that it evaluates by kernel reduction
(see `utcDay_ok_eq_floor`). -/
def utcDay (q : ℚ) : Except PyErr ℤ :=
  if (datetimeMinTs : ℚ) ≤ q ∧ q < (datetimeMaxTs : ℚ) then
    .ok (q.num.fdiv (86400 * q.den))
  else if q.num.natAbs < 2 ^ 62 * q.den then .error .valueError
  else .error .osError

/-- `messages_by_date[date].append(msg)` on an insertion-ordered dict. -/
def addToBucket : List (ℤ × List Msg) → ℤ → Msg → List (ℤ × List Msg)
  | [], d, m => [(d, [m])]
  | (d', l) :: rest, d, m =>
    if d' = d then (d', l ++ [m]) :: rest
    else (d', l) :: addToBucket rest d m

/-- Lines 73-81: bucket one message.  A falsy `ts` is not bucketed; a
`ValueError`/`TypeError` from `float` or from an out-of-range timestamp is
caught and the message skipped with a warning; other exceptions escape. -/
def bucketStep (acc : List (ℤ × List Msg)) (m : Msg) :
    Except PyErr (List (ℤ × List Msg)) :=
  if truthy (pyGetD m "ts" jnull) then
    match pyFloat (pyGetD m "ts" jnull) with
    | none => .ok acc
    | some q =>
      match utcDay q with
      | .ok d => .ok (addToBucket acc d m)
      | .error .valueError => .ok acc
      | .error e => .error e
  else .ok acc

/-- The whole bucketing loop over the (sorted) message list. -/
def bucketMessages (msgs : List Msg) : Except PyErr (List (ℤ × List Msg)) :=
  msgs.foldlM bucketStep []

/-- Numeric view of a scalar for Python comparisons (bools count as 0/1). -/
def qOfBoolNum : JPrim → Option ℚ
  | .num q => some q
  | .bool b => some (if b then 1 else 0)
  | _ => none

/-- Lexicographic `<` on character lists by code point, exactly Python's
string comparison (shorter string loses on a common prefix). -/
def charListLt : List Char → List Char → Bool
  | [], [] => false
  | [], _ :: _ => true
  | _ :: _, [] => false
  | c :: cs, d :: ds => if c = d then charListLt cs ds else decide (c < d)

/-- Python `s < t` on strings. -/
def pyStrLt (s t : String) : Bool :=
  charListLt s.toList t.toList

/-- Python `<` between the raw values compared by `min` at line 85:
string/string is lexicographic, number/bool are numeric, anything else
raises `TypeError`.  (Python also compares list/list lexicographically;
that case is never exercised by any theorem and is modelled as an error.) -/
def pyLt (a b : JVal) : Except PyErr Bool :=
  match a, b with
  | .prim (.str x), .prim (.str y) => .ok (pyStrLt x y)
  | .prim x, .prim y =>
    match qOfBoolNum x, qOfBoolNum y with
    | some qa, some qb => .ok (decide (qa < qb))
    | _, _ => .error .typeError
  | _, _ => .error .typeError

/-- Python `min` folded over a list: keeps the earlier element on ties. -/
def pyMinFold : JVal → List JVal → Except PyErr JVal
  | acc, [] => .ok acc
  | acc, x :: xs =>
    match pyLt x acc with
    | .error e => .error e
    | .ok true => pyMinFold x xs
    | .ok false => pyMinFold acc xs

/-- The raw (unparsed!) `ts` values of the messages with truthy `ts`:
the generator `(msg['ts'] for msg in messages if msg.get('ts'))`. -/
def rawTruthyTs (msgs : List Msg) : List JVal :=
  (msgs.filter (fun m => truthy (pyGetD m "ts" jnull))).map
    (fun m => (pyGet m "ts").getD jnull)

/-- Line 85's `min(..., default=0)` over the raw `ts` values. -/
def pyMinTs (msgs : List Msg) : Except PyErr JVal :=
  match rawTruthyTs msgs with
  | [] => .ok (jnum 0)
  | x :: xs => pyMinFold x xs

/-- Python `int()` on a float: truncation toward zero, i.e. the
toward-zero quotient of numerator by denominator. -/
def pyIntTrunc (q : ℚ) : ℤ :=
  q.num.tdiv q.den

/-- Python `max(it, key=list(teams).count)`: the first element of the
iteration attaining the maximal key wins (`max` replaces the running best
only on a strictly greater key).  The key counts occurrences in the
iterated list itself. -/
def pyMaxByCount (l : List JVal) : Option JVal :=
  match l with
  | [] => none
  | x :: xs =>
    some (xs.foldl (fun acc y => if l.count acc < l.count y then y else acc) x)

/-- Line 84.  `enum` models the (implementation-defined) iteration order of
the Python set; theorems quantify over every enumeration that is a
permutation of the set. -/
def teamIdOf (enum : List JVal → List JVal) (teams : List JVal) : JVal :=
  if teams.isEmpty then jstr "T_UNKNOWN"
  else (pyMaxByCount (enum teams)).getD (jstr "T_UNKNOWN")

/-- `next(iter(users))`, or the sentinel when the dict is empty (line 86). -/
def creatorOf (users : List (JVal × User)) : JVal :=
  match users with
  | [] => jstr "U_UNKNOWN"
  | (k, _) :: _ => k

/-- The synthetic channel of lines 88-98 (constant subdicts flattened). -/
structure Channel where
  id : String
  name : String
  created : ℤ
  creator : JVal
  is_archived : Bool
  is_mpim : Bool
  members : List JVal
  topic_value : String
  purpose_value : String
deriving DecidableEq

/-- Gregorian calendar date from a day number (days since the Unix epoch);
standard civil-from-days computation, done in ℕ after shifting to the
0000-03-01 era origin (nonnegative for every `datetime`-representable day). -/
def civilFromDays (day : ℤ) : ℕ × ℕ × ℕ :=
  let z : ℕ := (day + 719468).toNat
  let era := z / 146097
  let doe := z % 146097
  let yoe := (doe - doe / 1460 + doe / 36524 - doe / 146096) / 365
  let y := yoe + era * 400
  let doy := doe - (365 * yoe + yoe / 4 - yoe / 100)
  let mp := (5 * doy + 2) / 153
  let d := doy - (153 * mp + 2) / 5 + 1
  let m := if mp < 10 then mp + 3 else mp - 9
  (if m ≤ 2 then y + 1 else y, m, d)

/-- Zero-pad to two digits (`%m`, `%d`). -/
def pad2 (n : ℕ) : String :=
  if n < 10 then "0" ++ toString n else toString n

/-- `strftime('%Y-%m-%d')` of the day: year unpadded (as CPython on Linux
prints it), month and day zero-padded. -/
def dateString (day : ℤ) : String :=
  let c := civilFromDays day
  toString c.1 ++ "-" ++ pad2 c.2.1 ++ "-" ++ pad2 c.2.2

/-- `sorted` on strings (lexicographic by code point, as in Python). -/
def sortStrings (l : List String) : List String :=
  List.insertionSort (fun a b => pyStrLt b a = false) l

/-- `input_files_info.get(filename, 0)` (line 148). -/
def lookupCount (info : List FileResult) (nm : String) : ℕ :=
  match info.find? (fun r => r.name == nm) with
  | some r => r.count
  | none => 0

/-- `output_files_info[date]` (line 153). -/
def lookupOut (outCounts : List (String × ℕ)) (d : String) : ℕ :=
  match outCounts.find? (fun c => c.1 == d) with
  | some c => c.2
  | none => 0

/-- The lines of `report.txt` (lines 140-159), with the wall-clock
timestamp, input directory and output path passed in as parameters. -/
def reportLines (now inputDir outputZip : String) (jsonFiles : List String)
    (info : List FileResult) (outCounts : List (String × ℕ)) : List String :=
  let totalIn := (info.map (·.count)).sum
  let totalOut := (outCounts.map (·.2)).sum
  ["Slack JSON Conversion Report",
   "Generated: " ++ now,
   "",
   "Input Directory: " ++ inputDir,
   "Output ZIP: " ++ outputZip,
   "",
   "Total JSON Files Processed: " ++ toString jsonFiles.length,
   "",
   "Input JSON Files Loaded:"]
  ++ (sortStrings jsonFiles).map (fun nm =>
        "  " ++ nm ++ ": " ++ toString (lookupCount info nm) ++ " messages")
  ++ ["",
      "Total Input Messages: " ++ toString totalIn,
      "Output Files Created (search_results/):"]
  ++ (sortStrings (outCounts.map (·.1))).map (fun d =>
        "  " ++ d ++ ".json: " ++ toString (lookupOut outCounts d) ++ " messages")
  ++ ["",
      "Total Output Messages: " ++ toString totalOut,
      "",
      if totalIn = totalOut then
        "Summary: All messages from the 55 JSON files were successfully processed."
      else
        "Warning: Input and output message counts differ. Check for invalid messages or errors."]

/-- Everything the run produces: the archive entries (`users.json`,
`channels.json`, the per-date message files given by `buckets`/`outCounts`)
and `report.txt`.  `teamId` is line 84's computed-but-unused dominant team. -/
structure RunOutput where
  usersList : List User
  channel : Channel
  buckets : List (ℤ × List Msg)
  fileResults : List FileResult
  outCounts : List (String × ℕ)
  report : List String
  teamId : JVal
deriving DecidableEq

/-- The whole pipeline of `package_slack_jsons_with_report`, excluding the
mechanical file/zip I/O.  `enum` models the Python set iteration order used
at line 84; `now` the wall clock read at line 142.  An `.error` result is an
uncaught exception: nothing (no archive, no report) is produced. -/
def runCore (enum : List JVal → List JVal) (now inputDir : String)
    (outputZip : Option String) (files : List (String × FileContent)) :
    Except PyErr RunOutput :=
  let lr := loadRun files
  let st := lr.1
  let info := lr.2
  if st.messages.isEmpty then .error .noValidMessages
  else
    match keyedMessages st.messages with
    | none => .error .valueError
    | some keyed =>
      let sorted := List.insertionSort (fun a b => a.1 ≤ b.1) keyed
      let sortedMsgs := sorted.map (·.2)
      match bucketMessages sortedMsgs with
      | .error e => .error e
      | .ok buckets =>
        let tid := teamIdOf enum st.teams
        match pyMinTs sortedMsgs with
        | .error e => .error e
        | .ok minRaw =>
          match pyFloat minRaw with
          | none => .error .typeError
          | some minQ =>
            let channel : Channel :=
              { id := "C_SEARCH_RESULTS"
                name := "search_results"
                created := pyIntTrunc minQ
                creator := creatorOf st.users
                is_archived := false
                is_mpim := false
                members := st.users.map (·.1)
                topic_value := ""
                purpose_value := "Combined messages from search export" }
            let outCounts := buckets.map (fun b => (dateString b.1, b.2.length))
            let zipPath := outputZip.getD (inputDir ++ "/slack_export.zip")
            let report := reportLines now inputDir zipPath (files.map (·.1))
              info outCounts
            .ok { usersList := st.users.map (·.2)
                  channel := channel
                  buckets := buckets
                  fileResults := info
                  outCounts := outCounts
                  report := report
                  teamId := tid }

/-! ## Loader counting lemmas (claims C1, C8) -/

theorem registerUser_ok_parts {st : LoadState} {m : Msg} {st' : LoadState}
    (h : registerUser st m = .ok st') :
    st'.messages = st.messages ∧ st'.teams = st.teams := by
  unfold registerUser at h
  split at h
  · split at h
    · split at h
      · simp only [Except.ok.injEq] at h
        subst h
        exact ⟨rfl, rfl⟩
      · split at h
        · simp only [Except.ok.injEq] at h
          subst h
          exact ⟨rfl, rfl⟩
        · exact Except.noConfusion h
    · exact Except.noConfusion h
  · simp only [Except.ok.injEq] at h
    subst h
    exact ⟨rfl, rfl⟩

theorem addTeams_parts (st : LoadState) (m : Msg) :
    (addTeams st m).1.messages = st.messages ∧
    (addTeams st m).1.users = st.users := by
  unfold addTeams
  split
  · exact ⟨rfl, rfl⟩
  · split
    · exact ⟨rfl, rfl⟩
    · split
      · exact ⟨rfl, rfl⟩
      · exact ⟨rfl, rfl⟩

theorem processAccepted_parts (st : LoadState) (cnt : ℕ) (m : Msg) :
    (processAccepted st cnt m).1.messages = st.messages ++ [m] ∧
    (processAccepted st cnt m).2.1 = cnt + 1 := by
  unfold processAccepted
  rcases hr : registerUser { st with messages := st.messages ++ [m] } m with err | st2
  · exact ⟨rfl, rfl⟩
  · refine ⟨?_, rfl⟩
    show (addTeams st2 m).1.messages = st.messages ++ [m]
    have h1 := (addTeams_parts st2 m).1
    have h2 := (registerUser_ok_parts hr).1
    rw [h1, h2]

/-- Behaviour of `processElem` when the acceptance test raises. -/
theorem processElem_err {st : LoadState} {cnt : ℕ} {e : JElem} {err : PyErr}
    (hacc : acceptsElem e = .error err) :
    processElem st cnt e = (st, cnt, some err) := by
  rw [processElem, hacc]

/-- Behaviour of `processElem` on a skipped element. -/
theorem processElem_skip {st : LoadState} {cnt : ℕ} {e : JElem}
    (hacc : acceptsElem e = .ok none) :
    processElem st cnt e = (st, cnt, none) := by
  rw [processElem, hacc]

/-- Behaviour of `processElem` on an accepted message. -/
theorem processElem_accept {st : LoadState} {cnt : ℕ} {e : JElem} {m : Msg}
    (hacc : acceptsElem e = .ok (some m)) :
    processElem st cnt e = processAccepted st cnt m := by
  rw [processElem, hacc]

theorem processElem_ok_len {st : LoadState} {cnt : ℕ} {e : JElem}
    {st' : LoadState} {cnt' : ℕ}
    (h : processElem st cnt e = (st', cnt', none)) :
    st'.messages.length + cnt = st.messages.length + cnt' := by
  rcases hacc : acceptsElem e with err | om
  · rw [processElem_err hacc] at h
    simp at h
  · cases om with
    | none =>
      rw [processElem_skip hacc] at h
      simp only [Prod.mk.injEq] at h
      obtain ⟨h1, h2, -⟩ := h
      subst h1; subst h2; rfl
    | some m =>
      rw [processElem_accept hacc] at h
      have hm : (processAccepted st cnt m).1.messages = st'.messages := by rw [h]
      have hc : (processAccepted st cnt m).2.1 = cnt' := by rw [h]
      have hp := processAccepted_parts st cnt m
      rw [hp.1] at hm
      rw [hp.2] at hc
      rw [← hm, ← hc]
      simp [List.length_append]
      omega

theorem processElems_ok_len : ∀ {es : List JElem} {st : LoadState} {cnt : ℕ}
    {st' : LoadState} {cnt' : ℕ},
    processElems st cnt es = (st', cnt', none) →
    st'.messages.length + cnt = st.messages.length + cnt' := by
  intro es
  induction es with
  | nil =>
    intro st cnt st' cnt' h
    simp only [processElems, Prod.mk.injEq] at h
    obtain ⟨h1, h2, -⟩ := h
    subst h1; subst h2; rfl
  | cons e es ih =>
    intro st cnt st' cnt' h
    rcases hpe : processElem st cnt e with ⟨st1, cnt1, err⟩
    rw [processElems, hpe] at h
    cases err with
    | some err => simp at h
    | none =>
      have h1 := processElem_ok_len hpe
      have h2 := ih h
      omega

theorem loadFile_ok_len {st : LoadState} {fc : FileContent}
    {st' : LoadState} {cnt' : ℕ}
    (h : loadFile st fc = (st', cnt', none)) :
    st'.messages.length = st.messages.length + cnt' := by
  cases fc with
  | unreadable => simp [loadFile] at h
  | nonList =>
    simp only [loadFile, Prod.mk.injEq] at h
    obtain ⟨h1, h2, -⟩ := h
    subst h1; subst h2; rfl
  | list es =>
    rcases hpe : processElems st 0 es with ⟨st1, cnt1, err⟩
    rw [loadFile, hpe] at h
    cases err with
    | some err => simp at h
    | none =>
      simp only [Prod.mk.injEq] at h
      obtain ⟨h1, h2, -⟩ := h
      subst h1; subst h2
      have := processElems_ok_len hpe
      omega

theorem loadAll_ok_len : ∀ (files : List (String × FileContent)) (st : LoadState),
    (∀ r ∈ (loadAll st files).2, r.err = none) →
    (loadAll st files).1.messages.length
      = st.messages.length + ((loadAll st files).2.map (·.count)).sum := by
  intro files
  induction files with
  | nil => intro st _; simp [loadAll]
  | cons f files ih =>
    intro st h
    rcases f with ⟨nm, fc⟩
    rcases hlf : loadFile st fc with ⟨st1, cnt1, err1⟩
    simp only [loadAll, hlf] at h ⊢
    rw [List.forall_mem_cons] at h
    have herr : err1 = none := h.1
    subst herr
    have h1 := loadFile_ok_len hlf
    have h2 := ih st1 h.2
    simp only [List.map_cons, List.sum_cons]
    omega

/-- C1 (amended): when every file's per-element processing completes without
raising an exception, the sum of the per-file accepted counts recorded by
the loader equals the length of the single accepted-message sequence.
(As stated the claim is false: a mid-iteration exception — e.g. a
non-mapping `user_profile` on a registering message — records 0 for the
file while its already-appended messages stay in the sequence; see
`c1_counterexample`.) -/
theorem c1_sum_counts_eq_messages (files : List (String × FileContent))
    (h : ∀ r ∈ (loadRun files).2, r.err = none) :
    ((loadRun files).2.map (·.count)).sum = (loadRun files).1.messages.length := by
  have h0 := loadAll_ok_len files initState h
  simp only [loadRun, initState, List.length_nil] at *
  omega

/-- Witness for `c1_sum_counts_eq_messages` at a concrete two-file input. -/
theorem c1_sum_counts_eq_messages_witness :
    (∀ r ∈ (loadRun [("a.json", FileContent.list
        [.map [("type", jstr "message"), ("ts", jstr "1.0")]]),
      ("b.json", FileContent.list [.map [("type", jstr "other")]])]).2,
      r.err = none) ∧
    ((loadRun [("a.json", FileContent.list
        [.map [("type", jstr "message"), ("ts", jstr "1.0")]]),
      ("b.json", FileContent.list [.map [("type", jstr "other")]])]).2.map
        (·.count)).sum
      = (loadRun [("a.json", FileContent.list
        [.map [("type", jstr "message"), ("ts", jstr "1.0")]]),
      ("b.json", FileContent.list [.map [("type", jstr "other")]])]).1.messages.length :=
  ⟨by decide, c1_sum_counts_eq_messages _ (by decide)⟩

/-- Does a file parse to an array all of whose elements are mappings
(the claim's notion of a well-formed file)? -/
def allMapElems : FileContent → Bool
  | .list es => es.all (fun e => match e with | .map _ => true | _ => false)
  | _ => false

/-- C1 counterexample: a single well-formed file (a parsed array containing
only mapping elements) on which the recorded per-file counts sum to 0 while
the accepted-message sequence has length 1 — the message's `user_profile`
is `null`, so `profile.get` raises `AttributeError` after the message was
already appended, and the `except` branch records 0 for the file. -/
theorem c1_counterexample :
    ([("a.json", FileContent.list [.map [("type", jstr "message"),
        ("user", jstr "U1"), ("user_profile", jnull)]])].all
      (fun f => allMapElems f.2) = true) ∧
    ((loadRun [("a.json", FileContent.list [.map [("type", jstr "message"),
        ("user", jstr "U1"), ("user_profile", jnull)]])]).2.map
      (·.count)).sum = 0 ∧
    (loadRun [("a.json", FileContent.list [.map [("type", jstr "message"),
        ("user", jstr "U1"), ("user_profile", jnull)]])]).1.messages.length = 1 := by
  decide

/-! ## Partitioner lemmas (claims C2, C5, C6) -/

/-- The calendar day under which a message is bucketed, `none` if the
message is skipped by the bucketing loop (falsy `ts`, unparsable `ts`, or
out-of-range timestamp with the `ValueError` caught). -/
def bucketDay (m : Msg) : Option ℤ :=
  if truthy (pyGetD m "ts" jnull) then
    match pyFloat (pyGetD m "ts" jnull) with
    | none => none
    | some q =>
      match utcDay q with
      | .ok d => some d
      | .error _ => none
  else none

/-- The totalised sort key (the key of every message in a completed run). -/
def sortKeyD (m : Msg) : ℚ :=
  (sortKey m).getD 0

theorem bucketDay_eq_of_ok {m : Msg} {q : ℚ} {d : ℤ}
    (htr : truthy (pyGetD m "ts" jnull) = true)
    (hf : pyFloat (pyGetD m "ts" jnull) = some q) (hd : utcDay q = .ok d) :
    bucketDay m = some d := by
  unfold bucketDay
  rw [if_pos htr, hf]
  dsimp only
  rw [hd]

theorem bucketDay_eq_none_float {m : Msg}
    (htr : truthy (pyGetD m "ts" jnull) = true)
    (hf : pyFloat (pyGetD m "ts" jnull) = none) :
    bucketDay m = none := by
  unfold bucketDay
  rw [if_pos htr, hf]

theorem bucketDay_eq_none_err {m : Msg} {q : ℚ} {e : PyErr}
    (htr : truthy (pyGetD m "ts" jnull) = true)
    (hf : pyFloat (pyGetD m "ts" jnull) = some q) (hd : utcDay q = .error e) :
    bucketDay m = none := by
  unfold bucketDay
  rw [if_pos htr, hf]
  dsimp only
  rw [hd]

theorem bucketDay_eq_none_falsy {m : Msg}
    (htr : truthy (pyGetD m "ts" jnull) = false) :
    bucketDay m = none := by
  unfold bucketDay
  rw [htr]
  simp

theorem bucketStep_ok_inv {acc acc' : List (ℤ × List Msg)} {m : Msg}
    (h : bucketStep acc m = .ok acc') :
    (∃ d, bucketDay m = some d ∧ acc' = addToBucket acc d m) ∨
    (bucketDay m = none ∧ acc' = acc) := by
  unfold bucketStep at h
  split at h
  · rename_i htr
    cases hf : pyFloat (pyGetD m "ts" jnull) with
    | none =>
      rw [hf] at h
      dsimp only at h
      simp only [Except.ok.injEq] at h
      exact Or.inr ⟨bucketDay_eq_none_float htr hf, h.symm⟩
    | some q =>
      rw [hf] at h
      dsimp only at h
      cases hd : utcDay q with
      | ok d =>
        rw [hd] at h
        dsimp only at h
        simp only [Except.ok.injEq] at h
        exact Or.inl ⟨d, bucketDay_eq_of_ok htr hf hd, h.symm⟩
      | error e =>
        rw [hd] at h
        cases e with
        | valueError =>
          dsimp only at h
          simp only [Except.ok.injEq] at h
          exact Or.inr ⟨bucketDay_eq_none_err htr hf hd, h.symm⟩
        | typeError => exact Except.noConfusion h
        | attrError => exact Except.noConfusion h
        | osError => exact Except.noConfusion h
        | noValidMessages => exact Except.noConfusion h
  · rename_i htr
    simp only [Except.ok.injEq] at h
    exact Or.inr ⟨bucketDay_eq_none_falsy (by simpa using htr), h.symm⟩

theorem addToBucket_keys (bs : List (ℤ × List Msg)) (d : ℤ) (m : Msg) :
    (addToBucket bs d m).map (·.1) =
      if d ∈ bs.map (·.1) then bs.map (·.1) else bs.map (·.1) ++ [d] := by
  induction bs with
  | nil => simp [addToBucket]
  | cons b rest ih =>
    rcases b with ⟨d', l⟩
    by_cases hd : d' = d
    · subst hd
      simp [addToBucket]
    · simp only [addToBucket, if_neg hd, List.map_cons, ih]
      by_cases hmem : d ∈ rest.map (·.1)
      · simp [hmem, Ne.symm hd]
      · simp [hmem, Ne.symm hd]

theorem addToBucket_flatten (bs : List (ℤ × List Msg)) (d : ℤ) (m : Msg)
    (hsorted : (bs.map (·.1)).Pairwise (· < ·))
    (hge : ∀ k ∈ bs.map (·.1), k ≤ d) :
    ((addToBucket bs d m).map (·.2)).flatten
      = (bs.map (·.2)).flatten ++ [m] := by
  induction bs with
  | nil => simp [addToBucket]
  | cons b rest ih =>
    rcases b with ⟨d', l⟩
    by_cases hd : d' = d
    · subst hd
      have hrest : rest = [] := by
        cases rest with
        | nil => rfl
        | cons b' rest' =>
          exfalso
          simp only [List.map_cons] at hsorted
          have hlt : d' < b'.1 :=
            List.rel_of_pairwise_cons hsorted (by simp)
          have hle : b'.1 ≤ d' := hge b'.1 (by simp)
          omega
      subst hrest
      simp [addToBucket]
    · simp only [addToBucket, if_neg hd, List.map_cons, List.flatten_cons]
      rw [ih (List.Pairwise.of_cons hsorted)
        (fun k hk => hge k (by simp [hk]))]
      simp [List.append_assoc]

theorem bucketFold_inv :
    ∀ (msgs : List Msg) (acc bs : List (ℤ × List Msg)),
    List.foldlM bucketStep acc msgs = .ok bs →
    (acc.map (·.1)).Pairwise (· < ·) →
    (∀ k ∈ acc.map (·.1), ∀ m ∈ msgs, ∀ d, bucketDay m = some d → k ≤ d) →
    msgs.Pairwise (fun m m' => ∀ d d',
      bucketDay m = some d → bucketDay m' = some d' → d ≤ d') →
    (bs.map (·.1)).Pairwise (· < ·) ∧
      (bs.map (·.2)).flatten
        = (acc.map (·.2)).flatten
            ++ msgs.filter (fun m => (bucketDay m).isSome) := by
  intro msgs
  induction msgs with
  | nil =>
    intro acc bs h hsorted _ _
    simp only [List.foldlM_nil] at h
    cases h
    simp [hsorted]
  | cons m rest ih =>
    intro acc bs h hsorted hge hmono
    rw [List.foldlM_cons] at h
    cases hstep : bucketStep acc m with
    | error e =>
      rw [hstep] at h
      exact Except.noConfusion h
    | ok acc' =>
      rw [hstep] at h
      change List.foldlM bucketStep acc' rest = Except.ok bs at h
      rcases bucketStep_ok_inv hstep with ⟨d, hday, hacc'⟩ | ⟨hday, hacc'⟩
      · rw [hacc'] at h
        have hgem : ∀ k ∈ acc.map (·.1), k ≤ d := fun k hk =>
          hge k hk m (by simp) d hday
        have hkeys' : ((addToBucket acc d m).map (·.1)).Pairwise (· < ·) := by
          rw [addToBucket_keys]
          by_cases hmem : d ∈ acc.map (·.1)
          · rwa [if_pos hmem]
          · rw [if_neg hmem]
            rw [List.pairwise_append]
            refine ⟨hsorted, List.pairwise_singleton _ _, ?_⟩
            intro k hk d' hd'
            simp only [List.mem_singleton] at hd'
            subst hd'
            rcases lt_or_eq_of_le (hgem k hk) with hlt | heq
            · exact hlt
            · exact absurd (heq ▸ hk) hmem
        have hge' : ∀ k ∈ (addToBucket acc d m).map (·.1),
            ∀ m' ∈ rest, ∀ d', bucketDay m' = some d' → k ≤ d' := by
          intro k hk m' hm' d' hd'
          rw [addToBucket_keys] at hk
          have hdled : d ≤ d' :=
            List.rel_of_pairwise_cons hmono hm' d d' hday hd'
          by_cases hmem : d ∈ acc.map (·.1)
          · rw [if_pos hmem] at hk
            exact le_trans (hge k hk m' (by simp [hm']) d' hd') le_rfl
          · rw [if_neg hmem] at hk
            rcases List.mem_append.mp hk with hk | hk
            · exact hge k hk m' (by simp [hm']) d' hd'
            · simp only [List.mem_singleton] at hk
              subst hk
              exact hdled
        obtain ⟨hk, hf⟩ := ih (addToBucket acc d m) bs h hkeys' hge'
          (List.Pairwise.of_cons hmono)
        refine ⟨hk, ?_⟩
        rw [hf, addToBucket_flatten acc d m hsorted hgem]
        simp [hday, List.append_assoc]
      · rw [hacc'] at h
        obtain ⟨hk, hf⟩ := ih acc bs h hsorted
          (fun k hk m' hm' d' hd' => hge k hk m' (by simp [hm']) d' hd')
          (List.Pairwise.of_cons hmono)
        refine ⟨hk, ?_⟩
        rw [hf]
        simp [hday]

/-- The successful branch of `utcDay` is the floor of `q / 86400`. -/
theorem utcDay_ok_eq_floor {q : ℚ} {d : ℤ} (h : utcDay q = .ok d) :
    d = ⌊q / 86400⌋ := by
  unfold utcDay at h
  split at h
  · simp only [Except.ok.injEq] at h
    subst h
    have hq : q / 86400 = (q.num : ℚ) / ((86400 * q.den : ℕ) : ℚ) := by
      conv_lhs => rw [← Rat.num_div_den q]
      rw [div_div]
      push_cast
      rw [mul_comm ((q.den : ℚ)) 86400]
    rw [hq, Rat.floor_intCast_div_natCast]
    rw [Int.fdiv_eq_ediv _ (by positivity)]
    norm_cast
  · split at h <;> exact Except.noConfusion h

theorem utcDay_mono {q q' : ℚ} {d d' : ℤ} (h : utcDay q = .ok d)
    (h' : utcDay q' = .ok d') (hle : q ≤ q') : d ≤ d' := by
  rw [utcDay_ok_eq_floor h, utcDay_ok_eq_floor h']
  apply Int.floor_le_floor
  exact div_le_div_of_nonneg_right hle (by norm_num)

/-- Unfolding of a successful `bucketDay`. -/
theorem bucketDay_some_inv {m : Msg} {d : ℤ} (h : bucketDay m = some d) :
    truthy (pyGetD m "ts" jnull) = true ∧
    ∃ q, pyFloat (pyGetD m "ts" jnull) = some q ∧ utcDay q = .ok d := by
  unfold bucketDay at h
  split at h
  · rename_i htr
    refine ⟨htr, ?_⟩
    cases hf : pyFloat (pyGetD m "ts" jnull) with
    | none =>
      rw [hf] at h
      exact Option.noConfusion h
    | some q =>
      rw [hf] at h
      dsimp only at h
      cases hd : utcDay q with
      | ok d0 =>
        rw [hd] at h
        dsimp only at h
        simp only [Option.some.injEq] at h
        subst h
        exact ⟨q, rfl, hd⟩
      | error e =>
        rw [hd] at h
        exact Option.noConfusion h
  · exact Option.noConfusion h

/-- A bucketed message's sort key is its parsed `ts`. -/
theorem bucketDay_sortKey {m : Msg} {d : ℤ} (h : bucketDay m = some d) :
    ∃ q, sortKey m = some q ∧ pyFloat (pyGetD m "ts" jnull) = some q := by
  obtain ⟨htr, q, hf, -⟩ := bucketDay_some_inv h
  refine ⟨q, ?_, hf⟩
  unfold sortKey
  cases hts : pyGet m "ts" with
  | none =>
    rw [pyGetD, hts] at htr
    simp [truthy, jnull] at htr
  | some v =>
    rw [pyGetD, hts] at hf ⊢
    exact hf

theorem keyedMessages_spec : ∀ {msgs : List Msg} {keyed : List (ℚ × Msg)},
    keyedMessages msgs = some keyed →
    keyed.map (·.2) = msgs ∧ ∀ p ∈ keyed, sortKey p.2 = some p.1 := by
  intro msgs
  induction msgs with
  | nil =>
    intro keyed h
    simp only [keyedMessages, List.mapM_nil, Option.pure_def, Option.some.injEq] at h
    subst h
    exact ⟨rfl, by simp⟩
  | cons m rest ih =>
    intro keyed h
    simp only [keyedMessages, List.mapM_cons] at h
    cases hk : sortKey m with
    | none => rw [hk] at h; simp at h
    | some q =>
      rw [hk] at h
      cases hrest : rest.mapM (fun m => (sortKey m).map (fun q => (q, m))) with
      | none =>
        rw [hrest] at h
        simp at h
      | some ks =>
        rw [hrest] at h
        simp at h
        subst h
        obtain ⟨h1, h2⟩ := ih hrest
        refine ⟨by simp [h1], ?_⟩
        intro p hp
        rcases List.mem_cons.mp hp with hp | hp
        · subst hp; exact hk
        · exact h2 p hp

theorem orderedInsert_filter_key (k : ℚ) (a : ℚ × Msg) :
    ∀ l : List (ℚ × Msg),
      (List.orderedInsert (fun x y => x.1 ≤ y.1) a l).filter (fun p => p.1 == k)
        = if a.1 == k then a :: l.filter (fun p => p.1 == k)
          else l.filter (fun p => p.1 == k) := by
  intro l
  induction l with
  | nil =>
    by_cases hak : a.1 == k <;> simp [List.orderedInsert, List.filter, hak]
  | cons b l ih =>
    rw [List.orderedInsert]
    by_cases hle : a.1 ≤ b.1
    · rw [if_pos hle]
      by_cases hak : a.1 == k <;> simp [List.filter_cons, hak]
    · rw [if_neg hle]
      have hblt : b.1 < a.1 := lt_of_not_le hle
      by_cases hbk : b.1 == k
      · have hbkq : b.1 = k := by simpa using hbk
        by_cases hak : a.1 == k
        · have hakq : a.1 = k := by simpa using hak
          exfalso
          rw [hbkq, hakq] at hblt
          exact lt_irrefl k hblt
        · simp [List.filter_cons, hbk, hak, ih]
      · simp [List.filter_cons, hbk, ih]

theorem insertionSort_filter_key (k : ℚ) :
    ∀ l : List (ℚ × Msg),
      (List.insertionSort (fun x y => x.1 ≤ y.1) l).filter (fun p => p.1 == k)
        = l.filter (fun p => p.1 == k) := by
  intro l
  induction l with
  | nil => rfl
  | cons a l ih =>
    rw [List.insertionSort, orderedInsert_filter_key, ih]
    by_cases hak : a.1 == k <;> simp [List.filter_cons, hak]

instance : IsTotal (ℚ × Msg) (fun x y => x.1 ≤ y.1) :=
  ⟨fun a b => le_total a.1 b.1⟩

instance : IsTrans (ℚ × Msg) (fun x y => x.1 ≤ y.1) :=
  ⟨fun _ _ _ h h' => le_trans h h'⟩

/-- Inversion of a successful run: names every intermediate artefact of the
pipeline and ties the output record's fields to them. -/
theorem runCore_ok_inv {enum : List JVal → List JVal} {now inputDir : String}
    {outputZip : Option String} {files : List (String × FileContent)}
    {out : RunOutput}
    (h : runCore enum now inputDir outputZip files = .ok out) :
    ∃ keyed minRaw minQ,
      keyedMessages (loadRun files).1.messages = some keyed ∧
      bucketMessages ((List.insertionSort (fun x y => x.1 ≤ y.1) keyed).map (·.2))
        = .ok out.buckets ∧
      pyMinTs ((List.insertionSort (fun x y => x.1 ≤ y.1) keyed).map (·.2))
        = .ok minRaw ∧
      pyFloat minRaw = some minQ ∧
      out.usersList = (loadRun files).1.users.map (·.2) ∧
      out.channel.created = pyIntTrunc minQ ∧
      out.channel.creator = creatorOf (loadRun files).1.users ∧
      out.channel.members = (loadRun files).1.users.map (·.1) ∧
      out.fileResults = (loadRun files).2 ∧
      out.outCounts = out.buckets.map (fun b => (dateString b.1, b.2.length)) ∧
      out.teamId = teamIdOf enum (loadRun files).1.teams ∧
      out.report = reportLines now inputDir
        (outputZip.getD (inputDir ++ "/slack_export.zip")) (files.map (·.1))
        (loadRun files).2 (out.buckets.map (fun b => (dateString b.1, b.2.length))) := by
  simp only [runCore] at h
  split at h
  · exact Except.noConfusion h
  · cases hkm : keyedMessages (loadRun files).1.messages with
    | none =>
      rw [hkm] at h
      exact Except.noConfusion h
    | some keyed =>
      rw [hkm] at h
      dsimp only at h
      cases hbm : bucketMessages
          ((List.insertionSort (fun x y => x.1 ≤ y.1) keyed).map (·.2)) with
      | error e =>
        rw [hbm] at h
        exact Except.noConfusion h
      | ok buckets =>
        rw [hbm] at h
        dsimp only at h
        cases hmin : pyMinTs
            ((List.insertionSort (fun x y => x.1 ≤ y.1) keyed).map (·.2)) with
        | error e =>
          rw [hmin] at h
          exact Except.noConfusion h
        | ok minRaw =>
          rw [hmin] at h
          dsimp only at h
          cases hfl : pyFloat minRaw with
          | none =>
            rw [hfl] at h
            exact Except.noConfusion h
          | some minQ =>
            rw [hfl] at h
            dsimp only at h
            simp only [Except.ok.injEq] at h
            subst h
            exact ⟨keyed, minRaw, minQ, rfl, hbm, hmin, hfl, rfl, rfl, rfl,
              rfl, rfl, rfl, rfl, rfl⟩

instance exceptDecEq {ε α : Type} [DecidableEq ε] [DecidableEq α] :
    DecidableEq (Except ε α)
  | .ok a, .ok b =>
    if h : a = b then isTrue (h ▸ rfl)
    else isFalse (fun hc => h (Except.ok.inj hc))
  | .error e, .error f =>
    if h : e = f then isTrue (h ▸ rfl)
    else isFalse (fun hc => h (Except.error.inj hc))
  | .ok _, .error _ => isFalse (fun hc => Except.noConfusion hc)
  | .error _, .ok _ => isFalse (fun hc => Except.noConfusion hc)

theorem filter_swap {α : Type} (p q : α → Bool) (l : List α) :
    (l.filter q).filter p = (l.filter p).filter q := by
  rw [List.filter_filter, List.filter_filter]
  exact List.filter_congr (fun x _ => Bool.and_comm _ _)

/-- The sorted message list of a completed run is non-decreasing in the
totalised sort key. -/
theorem sorted_msgs_pairwise {msgs : List Msg} {keyed : List (ℚ × Msg)}
    (hkm : keyedMessages msgs = some keyed) :
    ((List.insertionSort (fun x y => x.1 ≤ y.1) keyed).map (·.2)).Pairwise
      (fun m m' => sortKeyD m ≤ sortKeyD m') := by
  have hsorted := List.sorted_insertionSort (fun (x y : ℚ × Msg) => x.1 ≤ y.1) keyed
  have hmem : ∀ p ∈ List.insertionSort (fun (x y : ℚ × Msg) => x.1 ≤ y.1) keyed,
      sortKey p.2 = some p.1 := fun p hp =>
    (keyedMessages_spec hkm).2 p ((List.perm_insertionSort _ keyed).mem_iff.mp hp)
  rw [List.pairwise_map]
  refine hsorted.imp_of_mem ?_
  intro a b ha hb hr
  have ha' := hmem a ha
  have hb' := hmem b hb
  rw [sortKeyD, sortKeyD, ha', hb']
  simpa using hr

/-- The sorted message list is monotone in bucket day. -/
theorem sorted_msgs_daymono {msgs : List Msg} {keyed : List (ℚ × Msg)}
    (hkm : keyedMessages msgs = some keyed) :
    ((List.insertionSort (fun x y => x.1 ≤ y.1) keyed).map (·.2)).Pairwise
      (fun m m' => ∀ d d', bucketDay m = some d → bucketDay m' = some d' →
        d ≤ d') := by
  refine (sorted_msgs_pairwise hkm).imp ?_
  intro m m' hle d d' hd hd'
  obtain ⟨q, hsk, hpf⟩ := bucketDay_sortKey hd
  obtain ⟨-, q1, hpf1, hu1⟩ := bucketDay_some_inv hd
  obtain ⟨q', hsk', hpf'⟩ := bucketDay_sortKey hd'
  obtain ⟨-, q2, hpf2, hu2⟩ := bucketDay_some_inv hd'
  rw [hpf] at hpf1
  rw [hpf'] at hpf2
  simp only [Option.some.injEq] at hpf1 hpf2
  subst hpf1
  subst hpf2
  rw [sortKeyD, sortKeyD, hsk, hsk'] at hle
  simp only [Option.getD_some] at hle
  exact utcDay_mono hu1 hu2 hle

/-- Key-filtering the sorted messages gives the same list as key-filtering
the accepted sequence (the sort is stable). -/
theorem sorted_msgs_stable {msgs : List Msg} {keyed : List (ℚ × Msg)}
    (hkm : keyedMessages msgs = some keyed) (k : ℚ) :
    ((List.insertionSort (fun x y => x.1 ≤ y.1) keyed).map (·.2)).filter
        (fun m => sortKeyD m == k)
      = msgs.filter (fun m => sortKeyD m == k) := by
  obtain ⟨hmap, hkeys⟩ := keyedMessages_spec hkm
  have hmem : ∀ p ∈ List.insertionSort (fun (x y : ℚ × Msg) => x.1 ≤ y.1) keyed,
      sortKey p.2 = some p.1 := fun p hp =>
    hkeys p ((List.perm_insertionSort _ keyed).mem_iff.mp hp)
  have h1 : (List.insertionSort (fun (x y : ℚ × Msg) => x.1 ≤ y.1) keyed).filter
        ((fun m => sortKeyD m == k) ∘ (·.2))
      = (List.insertionSort (fun (x y : ℚ × Msg) => x.1 ≤ y.1) keyed).filter
        (fun p => p.1 == k) := by
    refine List.filter_congr ?_
    intro p hp
    simp only [Function.comp_apply, sortKeyD, hmem p hp, Option.getD_some]
  have h2 : keyed.filter ((fun m => sortKeyD m == k) ∘ (·.2))
      = keyed.filter (fun p => p.1 == k) := by
    refine List.filter_congr ?_
    intro p hp
    simp only [Function.comp_apply, sortKeyD, hkeys p hp, Option.getD_some]
  conv_rhs => rw [← hmap]
  rw [List.filter_map, List.filter_map, h1, h2, insertionSort_filter_key]

/-- C6 (confirmed): in a completed run, every date bucket is non-decreasing
in the numeric sort key; the bucket dates are strictly increasing in the
emitted order, and concatenating the buckets in that (ascending-date) order
is non-decreasing in the key; key-tied messages keep their original
accepted-sequence order (stable sort, expressed as: filtering the
concatenation by any key value equals filtering the accepted sequence by
that key and then by bucketedness); and a message lacking the `ts` key
sorts as if its `ts` were 0. -/
theorem c6_bucket_order {enum : List JVal → List JVal} {now inputDir : String}
    {outputZip : Option String} {files : List (String × FileContent)}
    {out : RunOutput}
    (h : runCore enum now inputDir outputZip files = .ok out) :
    (∀ b ∈ out.buckets, b.2.Pairwise (fun m m' => sortKeyD m ≤ sortKeyD m')) ∧
    (out.buckets.map (·.1)).Pairwise (· < ·) ∧
    ((out.buckets.map (·.2)).flatten).Pairwise
      (fun m m' => sortKeyD m ≤ sortKeyD m') ∧
    (∀ k : ℚ, (out.buckets.map (·.2)).flatten.filter (fun m => sortKeyD m == k)
      = ((loadRun files).1.messages.filter (fun m => sortKeyD m == k)).filter
          (fun m => (bucketDay m).isSome)) ∧
    (∀ m : Msg, pyGet m "ts" = none → sortKey m = some 0) := by
  obtain ⟨keyed, minRaw, minQ, hkm, hbm, -⟩ := runCore_ok_inv h
  have hbm' : List.foldlM bucketStep []
      ((List.insertionSort (fun x y => x.1 ≤ y.1) keyed).map (·.2))
      = Except.ok out.buckets := hbm
  have hinv := bucketFold_inv
    ((List.insertionSort (fun x y => x.1 ≤ y.1) keyed).map (·.2))
    [] out.buckets hbm' (by simp) (by simp) (sorted_msgs_daymono hkm)
  obtain ⟨hkeys, hflat⟩ := hinv
  simp only [List.map_nil, List.flatten_nil, List.nil_append] at hflat
  have hpair := sorted_msgs_pairwise hkm
  have hflatpair : ((out.buckets.map (·.2)).flatten).Pairwise
      (fun m m' => sortKeyD m ≤ sortKeyD m') := by
    rw [hflat]
    exact hpair.sublist (List.filter_sublist _)
  refine ⟨?_, hkeys, hflatpair, ?_, ?_⟩
  · intro b hb
    have hsub : List.Sublist b.2 ((out.buckets.map (·.2)).flatten) :=
      List.sublist_flatten_of_mem (List.mem_map.mpr ⟨b, hb, rfl⟩)
    exact List.Pairwise.sublist hsub hflatpair
  · intro k
    rw [hflat, filter_swap, sorted_msgs_stable hkm k]
  · intro m hm
    unfold sortKey pyGetD
    rw [hm]
    rfl

/-- C2 (amended): in every completed run, the sum of the per-date bucket
sizes equals the number of accepted messages that actually bucket — those
whose `ts` is present and truthy, parses as a number, and lies in the
`datetime`-representable range (`bucketDay` is `some`).  (As stated the
claim is false: an accepted message with the numeric `ts` 0 has a present,
numerically parsable `ts` yet is dropped by the truthiness test `if ts:`;
see `c2_counterexample`.) -/
theorem c2_bucket_totals {enum : List JVal → List JVal} {now inputDir : String}
    {outputZip : Option String} {files : List (String × FileContent)}
    {out : RunOutput}
    (h : runCore enum now inputDir outputZip files = .ok out) :
    (out.buckets.map (fun b => b.2.length)).sum
      = ((loadRun files).1.messages.filter
          (fun m => (bucketDay m).isSome)).length := by
  obtain ⟨keyed, minRaw, minQ, hkm, hbm, -⟩ := runCore_ok_inv h
  have hbm' : List.foldlM bucketStep []
      ((List.insertionSort (fun x y => x.1 ≤ y.1) keyed).map (·.2))
      = Except.ok out.buckets := hbm
  obtain ⟨-, hflat⟩ := bucketFold_inv
    ((List.insertionSort (fun x y => x.1 ≤ y.1) keyed).map (·.2))
    [] out.buckets hbm' (by simp) (by simp) (sorted_msgs_daymono hkm)
  simp only [List.map_nil, List.flatten_nil, List.nil_append] at hflat
  have hlen : (out.buckets.map (fun b => b.2.length)).sum
      = ((out.buckets.map (·.2)).flatten).length := by
    rw [List.length_flatten, List.map_map]
    rfl
  rw [hlen, hflat]
  have hperm : ((List.insertionSort (fun x y => x.1 ≤ y.1) keyed).map (·.2)).Perm
      (loadRun files).1.messages := by
    have := (List.perm_insertionSort (fun (x y : ℚ × Msg) => x.1 ≤ y.1) keyed).map
      (·.2)
    rw [(keyedMessages_spec hkm).1] at this
    exact this
  exact (hperm.filter _).length_eq

/-- A message whose `ts` is present but carries the number 0: numerically
parsable, yet skipped by bucketing. -/
theorem c2_counterexample :
    ((runCore id "now" "dir" none [("a.json", FileContent.list
        [.map [("type", jstr "message"), ("ts", jnum 0)]])]).map
      (fun out => (out.buckets.map (fun b => b.2.length)).sum) = .ok 0) ∧
    ((loadRun [("a.json", FileContent.list
        [.map [("type", jstr "message"), ("ts", jnum 0)]])]).1.messages.filter
      (fun m => match pyGet m "ts" with
        | some v => (pyFloat v).isSome
        | none => false)).length = 1 := by
  decide

/-- A small concrete run used by witnesses: two message files (out of
time order, with and without profiles) and one non-message file. -/
def wFiles : List (String × FileContent) :=
  [("a.json", .list
      [.map [("type", jstr "message"), ("ts", jstr "200.5"), ("user", jstr "U2")],
       .map [("type", jstr "message"), ("ts", jstr "100.0"), ("user", jstr "U1"),
             ("user_profile", .obj [("name", .str "alice")])]]),
   ("b.json", .list [.map [("type", jstr "other")]])]

/-- The output of the concrete witness run. -/
def wOut : RunOutput :=
  match runCore id "now" "dir" none wFiles with
  | .ok o => o
  | .error _ =>
    ⟨[], ⟨"", "", 0, jnull, false, false, [], "", ""⟩, [], [], [], [], jnull⟩

/-- Witness for `c6_bucket_order` at the concrete run `wFiles`. -/
theorem c6_bucket_order_witness :
    (runCore id "now" "dir" none wFiles = .ok wOut) ∧
    ((∀ b ∈ wOut.buckets, b.2.Pairwise (fun m m' => sortKeyD m ≤ sortKeyD m')) ∧
    (wOut.buckets.map (·.1)).Pairwise (· < ·) ∧
    ((wOut.buckets.map (·.2)).flatten).Pairwise
      (fun m m' => sortKeyD m ≤ sortKeyD m') ∧
    (∀ k : ℚ, (wOut.buckets.map (·.2)).flatten.filter (fun m => sortKeyD m == k)
      = ((loadRun wFiles).1.messages.filter (fun m => sortKeyD m == k)).filter
          (fun m => (bucketDay m).isSome)) ∧
    (∀ m : Msg, pyGet m "ts" = none → sortKey m = some 0)) :=
  ⟨by decide, @c6_bucket_order id "now" "dir" none wFiles wOut (by decide)⟩

/-- Witness for `c2_bucket_totals` at the concrete run `wFiles`. -/
theorem c2_bucket_totals_witness :
    (runCore id "now" "dir" none wFiles = .ok wOut) ∧
    (wOut.buckets.map (fun b => b.2.length)).sum
      = ((loadRun wFiles).1.messages.filter
          (fun m => (bucketDay m).isSome)).length :=
  ⟨by decide, @c2_bucket_totals id "now" "dir" none wFiles wOut (by decide)⟩

/-! ## Channel creation time (claim C3) -/

theorem charListLt_iff : ∀ a b : List Char,
    charListLt a b = true ↔ List.Lex (· < ·) a b := by
  intro a
  induction a with
  | nil =>
    intro b
    cases b with
    | nil => simp [charListLt]
    | cons d ds => simp [charListLt]; exact List.Lex.nil
  | cons c cs ih =>
    intro b
    cases b with
    | nil =>
      simp only [charListLt, Bool.false_eq_true, false_iff]
      intro hlex
      cases hlex
    | cons d ds =>
      rw [charListLt]
      by_cases hcd : c = d
      · subst hcd
        rw [if_pos rfl, ih]
        constructor
        · exact fun hl => List.Lex.cons hl
        · intro hl
          cases hl with
          | cons h => exact h
          | rel h => exact absurd h (lt_irrefl c)
      · rw [if_neg hcd]
        constructor
        · intro hlt
          exact List.Lex.rel (by simpa using hlt)
        · intro hl
          cases hl with
          | cons h => exact absurd rfl hcd
          | rel h => simpa using h

theorem pyStrLt_iff {s t : String} : pyStrLt s t = true ↔ s < t := by
  rw [pyStrLt, charListLt_iff]
  exact Iff.symm String.lt_iff_toList_lt

/-- `foldl min` over a list starting at its head is a member of the list. -/
theorem foldl_min_mem : ∀ (ss : List String) (s0 : String),
    ss.foldl min s0 ∈ s0 :: ss
  | [], s0 => by simp
  | s :: ss, s0 => by
    simp only [List.foldl_cons]
    have h := foldl_min_mem ss (min s0 s)
    rcases List.mem_cons.mp h with h | h
    · rw [h]
      rcases min_choice s0 s with hm | hm <;> rw [hm] <;> simp
    · simp [h]

/-- `foldl min` is a lower bound of the list. -/
theorem foldl_min_le : ∀ (ss : List String) (s0 x : String),
    x ∈ s0 :: ss → ss.foldl min s0 ≤ x
  | [], s0, x, hx => by
    simp only [List.mem_singleton] at hx
    subst hx
    exact le_rfl
  | s :: ss, s0, x, hx => by
    simp only [List.foldl_cons]
    have hmin := foldl_min_le ss (min s0 s) (min s0 s) (by simp)
    rcases List.mem_cons.mp hx with rfl | hx2
    · exact le_trans hmin (min_le_left _ _)
    · rcases List.mem_cons.mp hx2 with rfl | hx3
      · exact le_trans hmin (min_le_right _ _)
      · exact foldl_min_le ss (min s0 s) x (by simp [hx3])

/-- The head-seeded `foldl min` is permutation-invariant. -/
theorem foldl_min_perm {a b : String} {as bs : List String}
    (p : (a :: as).Perm (b :: bs)) : as.foldl min a = bs.foldl min b := by
  apply le_antisymm
  · exact foldl_min_le as a _ (p.mem_iff.mpr (foldl_min_mem bs b))
  · exact foldl_min_le bs b _ (p.mem_iff.mp (foldl_min_mem as a))

/-- Python's `min` fold over string values in terms of `min` on `String`. -/
theorem pyMinFold_strings (ss : List String) (a : String) :
    pyMinFold (jstr a) (ss.map jstr) = .ok (jstr (ss.foldl min a)) := by
  induction ss generalizing a with
  | nil => rfl
  | cons s ss ih =>
    simp only [List.map_cons, List.foldl_cons]
    rw [pyMinFold]
    have hlt : pyLt (jstr s) (jstr a) = .ok (pyStrLt s a) := rfl
    rw [hlt]
    by_cases hsa : pyStrLt s a
    · rw [hsa]
      have hmin : min a s = s := by
        have : s < a := pyStrLt_iff.mp hsa
        exact min_eq_right (le_of_lt this)
      rw [hmin]
      exact ih s
    · rw [Bool.not_eq_true] at hsa
      rw [hsa]
      have hmin : min a s = a := by
        have : ¬s < a := fun hc => by
          rw [← pyStrLt_iff] at hc
          rw [hc] at hsa
          exact Bool.noConfusion hsa
        exact min_eq_left (le_of_not_lt this)
      rw [hmin]
      exact ih a

/-- Is the value a string scalar? -/
def isStrVal : JVal → Bool
  | .prim (.str _) => true
  | _ => false

/-- The string payloads of a list of string values. -/
def strPayloads (l : List JVal) : List String :=
  l.filterMap (fun v => match v with
    | JVal.prim (JPrim.str s) => some s
    | _ => none)

theorem all_str_eq_map {l : List JVal} (h : l.all isStrVal = true) :
    l = (strPayloads l).map jstr := by
  induction l with
  | nil => rfl
  | cons v l ih =>
    simp only [List.all_cons, Bool.and_eq_true] at h
    obtain ⟨hv, hl⟩ := h
    cases v with
    | prim p =>
      cases p with
      | str s => simp only [strPayloads, List.filterMap_cons]; exact congrArg _ (ih hl)
      | null => exact absurd hv (by simp [isStrVal])
      | bool b => exact absurd hv (by simp [isStrVal])
      | num q => exact absurd hv (by simp [isStrVal])
    | arr xs => exact absurd hv (by simp [isStrVal])
    | obj kvs => exact absurd hv (by simp [isStrVal])

/-- C3 (amended): in every completed run in which all truthy raw `ts`
values are strings, the channel's `created` field equals the truncation
toward zero of the numeric value of the LEXICOGRAPHICALLY smallest raw
`ts` string over accepted messages (line 85 takes `min` over the raw,
unparsed values, so string timestamps compare lexicographically — e.g.
"10.5" < "9.5"), and 0 when no accepted message has a truthy `ts`.
(As stated — floor of the minimum of the parsed values — the claim is
false; see `c3_counterexample`.) -/
theorem c3_created_lex_min {enum : List JVal → List JVal}
    {now inputDir : String} {outputZip : Option String}
    {files : List (String × FileContent)} {out : RunOutput}
    (h : runCore enum now inputDir outputZip files = .ok out)
    (hstr : (rawTruthyTs (loadRun files).1.messages).all isStrVal = true) :
    (strPayloads (rawTruthyTs (loadRun files).1.messages) = [] →
      out.channel.created = 0) ∧
    (∀ s0 ss, strPayloads (rawTruthyTs (loadRun files).1.messages) = s0 :: ss →
      ∃ q, parseFloat (ss.foldl min s0) = some q ∧
        out.channel.created = pyIntTrunc q) := by
  obtain ⟨keyed, minRaw, minQ, hkm, -, hmin, hfl, -, hcr, -⟩ := runCore_ok_inv h
  have hperm : ((List.insertionSort (fun x y => x.1 ≤ y.1) keyed).map (·.2)).Perm
      (loadRun files).1.messages := by
    have hp := (List.perm_insertionSort (fun (x y : ℚ × Msg) => x.1 ≤ y.1) keyed).map
      (·.2)
    rw [(keyedMessages_spec hkm).1] at hp
    exact hp
  have hrawperm : (rawTruthyTs ((List.insertionSort (fun x y => x.1 ≤ y.1) keyed).map
      (·.2))).Perm (rawTruthyTs (loadRun files).1.messages) :=
    (hperm.filter _).map _
  have hstr' : (rawTruthyTs ((List.insertionSort (fun x y => x.1 ≤ y.1) keyed).map
      (·.2))).all isStrVal = true := by
    rw [List.all_eq_true] at hstr ⊢
    exact fun v hv => hstr v (hrawperm.mem_iff.mp hv)
  have hsortedmap := all_str_eq_map hstr'
  have hpayperm : (strPayloads (rawTruthyTs ((List.insertionSort
      (fun x y => x.1 ≤ y.1) keyed).map (·.2)))).Perm
      (strPayloads (rawTruthyTs (loadRun files).1.messages)) :=
    hrawperm.filterMap _
  constructor
  · intro hnil
    have hsortednil : strPayloads (rawTruthyTs ((List.insertionSort
        (fun x y => x.1 ≤ y.1) keyed).map (·.2))) = [] := by
      rw [hnil] at hpayperm
      exact List.Perm.eq_nil hpayperm
    have hraw : rawTruthyTs ((List.insertionSort (fun x y => x.1 ≤ y.1) keyed).map
        (·.2)) = [] := by
      rw [hsortedmap, hsortednil]
      rfl
    rw [pyMinTs, hraw] at hmin
    dsimp only at hmin
    simp only [Except.ok.injEq] at hmin
    subst hmin
    have hq0 : minQ = 0 := by
      have h0 : pyFloat (jnum 0) = some 0 := rfl
      rw [h0] at hfl
      injection hfl with hq
      exact hq.symm
    rw [hcr, hq0]
    decide
  · intro s0 ss hcons
    rcases hpay : strPayloads (rawTruthyTs ((List.insertionSort
        (fun x y => x.1 ≤ y.1) keyed).map (·.2))) with _ | ⟨t0, ts⟩
    · rw [hpay, hcons] at hpayperm
      exact absurd (List.Perm.eq_nil hpayperm.symm) (List.cons_ne_nil s0 ss)
    · rw [hpay, hcons] at hpayperm
      have hfold : ts.foldl min t0 = ss.foldl min s0 := foldl_min_perm hpayperm
      have hraw : rawTruthyTs ((List.insertionSort (fun x y => x.1 ≤ y.1) keyed).map
          (·.2)) = jstr t0 :: ts.map jstr := by
        rw [hsortedmap, hpay]
        rfl
      rw [pyMinTs, hraw] at hmin
      dsimp only at hmin
      rw [pyMinFold_strings] at hmin
      simp only [Except.ok.injEq] at hmin
      subst hmin
      refine ⟨minQ, ?_, hcr⟩
      rw [hfold] at hfl
      exact hfl

/-- The claim's reading of channel `created` (C3): the integer floor of the
minimum over accepted messages of `ts` parsed as a number; 0 when no
accepted message has a parsable `ts`. -/
def specC3_created (msgs : List Msg) : ℤ :=
  match (msgs.filterMap (fun m => pyGet m "ts")).filterMap pyFloat with
  | [] => 0
  | q :: qs => ⌊qs.foldl min q⌋

/-- Input with string timestamps whose lexicographic and numeric minima
differ. -/
def c3Files : List (String × FileContent) :=
  [("a.json", .list
      [.map [("type", jstr "message"), ("ts", jstr "9.5")],
       .map [("type", jstr "message"), ("ts", jstr "10.5")]])]

/-- C3 counterexample: with string timestamps "9.5" and "10.5" the code's
`min` (line 85) compares the raw strings lexicographically, so
"10.5" < "9.5" and `created` = int(float("10.5")) = 10, while the claim's
floor of the numeric minimum is ⌊9.5⌋ = 9. -/
theorem c3_counterexample :
    ((runCore id "now" "dir" none c3Files).map (fun out => out.channel.created)
      = .ok 10) ∧
    specC3_created (loadRun c3Files).1.messages = 9 := by
  decide

/-- Witness for `c3_created_lex_min` at the concrete run `wFiles`. -/
theorem c3_created_lex_min_witness :
    (runCore id "now" "dir" none wFiles = .ok wOut) ∧
    ((rawTruthyTs (loadRun wFiles).1.messages).all isStrVal = true) ∧
    ((strPayloads (rawTruthyTs (loadRun wFiles).1.messages) = [] →
      wOut.channel.created = 0) ∧
    (∀ s0 ss, strPayloads (rawTruthyTs (loadRun wFiles).1.messages) = s0 :: ss →
      ∃ q, parseFloat (ss.foldl min s0) = some q ∧
        wOut.channel.created = pyIntTrunc q)) :=
  ⟨by decide, by decide,
    @c3_created_lex_min id "now" "dir" none wFiles wOut (by decide) (by decide)⟩

/-! ## Team id (claim C4) -/

/-- The three values line 56-58 adds to the `teams` set for one message
(missing fields contribute the empty string). -/
def teamVals (m : Msg) : List JVal :=
  [pyGetD m "team" (jstr ""), pyGetD m "source_team" (jstr ""),
   pyGetD m "user_team" (jstr "")]

theorem pyEqV_refl (a : JVal) : pyEqV a a = true := by
  simp [pyEqV]

theorem pyEqV_symm {a b : JVal} (h : pyEqV a b = true) : pyEqV b a = true := by
  simp only [pyEqV, beq_iff_eq] at h ⊢
  exact h.symm

theorem pyEqV_trans {a b c : JVal} (h1 : pyEqV a b = true)
    (h2 : pyEqV b c = true) : pyEqV a c = true := by
  simp only [pyEqV, beq_iff_eq] at h1 h2 ⊢
  exact h1.trans h2

theorem ne_of_pyEqV_false {a b : JVal} (h : pyEqV a b = false) : a ≠ b := by
  intro he
  subst he
  rw [pyEqV_refl a] at h
  exact Bool.noConfusion h

theorem setAddChecked_ok_inv {s : List JVal} {v : JVal} {s' : List JVal}
    (h : setAddChecked s v = .ok s') :
    (∀ x, (∃ w ∈ s', pyEqV w x = true) ↔
      (∃ w ∈ s, pyEqV w x = true) ∨ pyEqV v x = true) ∧
    (∀ w ∈ s', w ∈ s ∨ w = v) ∧
    (s.Pairwise (fun a b => pyEqV a b = false) →
      s'.Pairwise (fun a b => pyEqV a b = false)) := by
  unfold setAddChecked at h
  split at h
  · simp only [Except.ok.injEq] at h
    subst h
    by_cases hc : s.any (fun w => pyEqV w v) = true
    · rw [if_pos hc]
      rw [List.any_eq_true] at hc
      obtain ⟨w0, hw0, he0⟩ := hc
      refine ⟨fun x => ⟨Or.inl, ?_⟩, fun w hw => Or.inl hw, id⟩
      rintro (hx | hx)
      · exact hx
      · exact ⟨w0, hw0, pyEqV_trans he0 hx⟩
    · rw [if_neg hc]
      rw [List.any_eq_true] at hc
      push_neg at hc
      refine ⟨fun x => ?_, fun w hw => ?_, fun hp => ?_⟩
      · constructor
        · rintro ⟨w, hw, he⟩
          rcases List.mem_append.mp hw with hw | hw
          · exact Or.inl ⟨w, hw, he⟩
          · simp only [List.mem_singleton] at hw
            subst hw
            exact Or.inr he
        · rintro (⟨w, hw, he⟩ | he)
          · exact ⟨w, List.mem_append.mpr (Or.inl hw), he⟩
          · exact ⟨v, List.mem_append.mpr (Or.inr (by simp)), he⟩
      · rcases List.mem_append.mp hw with hw | hw
        · exact Or.inl hw
        · simp only [List.mem_singleton] at hw
          exact Or.inr hw
      · rw [List.pairwise_append]
        refine ⟨hp, List.pairwise_singleton _ _, ?_⟩
        intro a ha b hb
        simp only [List.mem_singleton] at hb
        rw [hb]
        cases hx : pyEqV a v
        · rfl
        · exact absurd hx (hc a ha)
  · exact Except.noConfusion h

theorem addTeams_ok_inv {st : LoadState} {m : Msg} {st' : LoadState}
    (h : addTeams st m = (st', none)) :
    (∀ x, (∃ w ∈ st'.teams, pyEqV w x = true) ↔
      (∃ w ∈ st.teams, pyEqV w x = true) ∨
        (∃ w ∈ teamVals m, pyEqV w x = true)) ∧
    (∀ w ∈ st'.teams, w ∈ st.teams ∨ w ∈ teamVals m) ∧
    (st.teams.Pairwise (fun a b => pyEqV a b = false) →
      st'.teams.Pairwise (fun a b => pyEqV a b = false)) := by
  unfold addTeams at h
  cases h1 : setAddChecked st.teams (pyGetD m "team" (jstr "")) with
  | error e => rw [h1] at h; simp at h
  | ok t1 =>
    rw [h1] at h
    dsimp only at h
    cases h2 : setAddChecked t1 (pyGetD m "source_team" (jstr "")) with
    | error e => rw [h2] at h; simp at h
    | ok t2 =>
      rw [h2] at h
      dsimp only at h
      cases h3 : setAddChecked t2 (pyGetD m "user_team" (jstr "")) with
      | error e => rw [h3] at h; simp at h
      | ok t3 =>
        rw [h3] at h
        dsimp only at h
        simp only [Prod.mk.injEq] at h
        obtain ⟨hst, -⟩ := h
        subst hst
        obtain ⟨m1, p1, n1⟩ := setAddChecked_ok_inv h1
        obtain ⟨m2, p2, n2⟩ := setAddChecked_ok_inv h2
        obtain ⟨m3, p3, n3⟩ := setAddChecked_ok_inv h3
        refine ⟨?_, ?_, fun hp => n3 (n2 (n1 hp))⟩
        · intro x
          rw [m3 x, m2 x, m1 x]
          simp only [teamVals, List.mem_cons, List.not_mem_nil, or_false,
            List.mem_singleton]
          constructor
          · rintro (((h | h) | h) | h)
            · exact Or.inl h
            · exact Or.inr ⟨_, Or.inl rfl, h⟩
            · exact Or.inr ⟨_, Or.inr (Or.inl rfl), h⟩
            · exact Or.inr ⟨_, Or.inr (Or.inr rfl), h⟩
          · rintro (h | ⟨w, (hw | hw | hw), he⟩)
            · exact Or.inl (Or.inl (Or.inl h))
            · exact Or.inl (Or.inl (Or.inr (hw ▸ he)))
            · exact Or.inl (Or.inr (hw ▸ he))
            · exact Or.inr (hw ▸ he)
        · intro w hw
          rcases p3 w hw with hw2 | hw2
          · rcases p2 w hw2 with hw1 | hw1
            · rcases p1 w hw1 with hw0 | hw0
              · exact Or.inl hw0
              · exact Or.inr (by simp [teamVals, hw0])
            · exact Or.inr (by simp [teamVals, hw1])
          · exact Or.inr (by simp [teamVals, hw2])

theorem processAccepted_ok_inv {st : LoadState} {cnt : ℕ} {m : Msg}
    {st' : LoadState} {cnt' : ℕ}
    (h : processAccepted st cnt m = (st', cnt', none)) :
    st'.messages = st.messages ++ [m] ∧
    (∀ x, (∃ w ∈ st'.teams, pyEqV w x = true) ↔
      (∃ w ∈ st.teams, pyEqV w x = true) ∨
        (∃ w ∈ teamVals m, pyEqV w x = true)) ∧
    (∀ w ∈ st'.teams, w ∈ st.teams ∨ w ∈ teamVals m) ∧
    (st.teams.Pairwise (fun a b => pyEqV a b = false) →
      st'.teams.Pairwise (fun a b => pyEqV a b = false)) := by
  unfold processAccepted at h
  cases hr : registerUser { st with messages := st.messages ++ [m] } m with
  | error e => rw [hr] at h; simp at h
  | ok st2 =>
    rw [hr] at h
    simp only [Prod.mk.injEq] at h
    obtain ⟨h1, -, h3⟩ := h
    have hat : addTeams st2 m = ((addTeams st2 m).1, none) := by
      rw [← h3]
    obtain ⟨hmem, hprov, hnd⟩ := addTeams_ok_inv hat
    obtain ⟨hm2, ht2⟩ := registerUser_ok_parts hr
    subst h1
    refine ⟨?_, ?_, ?_, ?_⟩
    · rw [(addTeams_parts st2 m).1, hm2]
    · intro x
      rw [hmem x, ht2]
    · intro w hw
      rcases hprov w hw with hw2 | hw2
      · exact Or.inl (ht2 ▸ hw2)
      · exact Or.inr hw2
    · intro hn
      exact hnd (ht2 ▸ hn)

theorem processElem_ok_inv {st : LoadState} {cnt : ℕ} {e : JElem}
    {st' : LoadState} {cnt' : ℕ}
    (h : processElem st cnt e = (st', cnt', none)) :
    ∃ new : List Msg, st'.messages = st.messages ++ new ∧
      (∀ x, (∃ w ∈ st'.teams, pyEqV w x = true) ↔
        (∃ w ∈ st.teams, pyEqV w x = true) ∨
          ∃ m ∈ new, ∃ w ∈ teamVals m, pyEqV w x = true) ∧
      (∀ w ∈ st'.teams, w ∈ st.teams ∨ ∃ m ∈ new, w ∈ teamVals m) ∧
      (st.teams.Pairwise (fun a b => pyEqV a b = false) →
        st'.teams.Pairwise (fun a b => pyEqV a b = false)) := by
  rcases hacc : acceptsElem e with err | om
  · rw [processElem_err hacc] at h
    simp at h
  · cases om with
    | none =>
      rw [processElem_skip hacc] at h
      simp only [Prod.mk.injEq] at h
      obtain ⟨h1, -, -⟩ := h
      subst h1
      exact ⟨[], by simp, fun x => by simp, fun w hw => Or.inl hw, id⟩
    | some m =>
      rw [processElem_accept hacc] at h
      obtain ⟨h1, h2, h3, h4⟩ := processAccepted_ok_inv h
      refine ⟨[m], h1, ?_, ?_, h4⟩
      · intro x
        rw [h2 x]
        simp
      · intro w hw
        rcases h3 w hw with hw2 | hw2
        · exact Or.inl hw2
        · exact Or.inr ⟨m, by simp, hw2⟩

theorem processElems_ok_inv : ∀ {es : List JElem} {st : LoadState} {cnt : ℕ}
    {st' : LoadState} {cnt' : ℕ},
    processElems st cnt es = (st', cnt', none) →
    ∃ new : List Msg, st'.messages = st.messages ++ new ∧
      (∀ x, (∃ w ∈ st'.teams, pyEqV w x = true) ↔
        (∃ w ∈ st.teams, pyEqV w x = true) ∨
          ∃ m ∈ new, ∃ w ∈ teamVals m, pyEqV w x = true) ∧
      (∀ w ∈ st'.teams, w ∈ st.teams ∨ ∃ m ∈ new, w ∈ teamVals m) ∧
      (st.teams.Pairwise (fun a b => pyEqV a b = false) →
        st'.teams.Pairwise (fun a b => pyEqV a b = false)) := by
  intro es
  induction es with
  | nil =>
    intro st cnt st' cnt' h
    simp only [processElems, Prod.mk.injEq] at h
    obtain ⟨h1, -, -⟩ := h
    subst h1
    exact ⟨[], by simp, fun x => by simp, fun w hw => Or.inl hw, id⟩
  | cons e es ih =>
    intro st cnt st' cnt' h
    rcases hpe : processElem st cnt e with ⟨st1, cnt1, err⟩
    rw [processElems, hpe] at h
    cases err with
    | some err => simp at h
    | none =>
      obtain ⟨n1, hm1, ht1, hp1, hn1⟩ := processElem_ok_inv hpe
      obtain ⟨n2, hm2, ht2, hp2, hn2⟩ := ih h
      refine ⟨n1 ++ n2, ?_, ?_, ?_, fun hn => hn2 (hn1 hn)⟩
      · rw [hm2, hm1, List.append_assoc]
      · intro x
        rw [ht2 x, ht1 x]
        constructor
        · rintro ((hx | ⟨m, hm, hv⟩) | ⟨m, hm, hv⟩)
          · exact Or.inl hx
          · exact Or.inr ⟨m, by simp [hm], hv⟩
          · exact Or.inr ⟨m, by simp [hm], hv⟩
        · rintro (hx | ⟨m, hm, hv⟩)
          · exact Or.inl (Or.inl hx)
          · rcases List.mem_append.mp hm with hm | hm
            · exact Or.inl (Or.inr ⟨m, hm, hv⟩)
            · exact Or.inr ⟨m, hm, hv⟩
      · intro w hw
        rcases hp2 w hw with hw2 | ⟨m, hm, hv⟩
        · rcases hp1 w hw2 with hw1 | ⟨m, hm, hv⟩
          · exact Or.inl hw1
          · exact Or.inr ⟨m, by simp [hm], hv⟩
        · exact Or.inr ⟨m, by simp [hm], hv⟩

theorem loadFile_ok_inv {st : LoadState} {fc : FileContent}
    {st' : LoadState} {cnt' : ℕ}
    (h : loadFile st fc = (st', cnt', none)) :
    ∃ new : List Msg, st'.messages = st.messages ++ new ∧
      (∀ x, (∃ w ∈ st'.teams, pyEqV w x = true) ↔
        (∃ w ∈ st.teams, pyEqV w x = true) ∨
          ∃ m ∈ new, ∃ w ∈ teamVals m, pyEqV w x = true) ∧
      (∀ w ∈ st'.teams, w ∈ st.teams ∨ ∃ m ∈ new, w ∈ teamVals m) ∧
      (st.teams.Pairwise (fun a b => pyEqV a b = false) →
        st'.teams.Pairwise (fun a b => pyEqV a b = false)) := by
  cases fc with
  | unreadable => simp [loadFile] at h
  | nonList =>
    simp only [loadFile, Prod.mk.injEq] at h
    obtain ⟨h1, -, -⟩ := h
    subst h1
    exact ⟨[], by simp, fun x => by simp, fun w hw => Or.inl hw, id⟩
  | list es =>
    rcases hpe : processElems st 0 es with ⟨st1, cnt1, err⟩
    rw [loadFile, hpe] at h
    cases err with
    | some err => simp at h
    | none =>
      simp only [Prod.mk.injEq] at h
      obtain ⟨h1, -, -⟩ := h
      subst h1
      exact processElems_ok_inv hpe

theorem loadAll_ok_inv : ∀ (files : List (String × FileContent)) (st : LoadState),
    (∀ r ∈ (loadAll st files).2, r.err = none) →
    ∃ new : List Msg, (loadAll st files).1.messages = st.messages ++ new ∧
      (∀ x, (∃ w ∈ (loadAll st files).1.teams, pyEqV w x = true) ↔
        (∃ w ∈ st.teams, pyEqV w x = true) ∨
          ∃ m ∈ new, ∃ w ∈ teamVals m, pyEqV w x = true) ∧
      (∀ w ∈ (loadAll st files).1.teams,
        w ∈ st.teams ∨ ∃ m ∈ new, w ∈ teamVals m) ∧
      (st.teams.Pairwise (fun a b => pyEqV a b = false) →
        (loadAll st files).1.teams.Pairwise (fun a b => pyEqV a b = false)) := by
  intro files
  induction files with
  | nil =>
    intro st _
    exact ⟨[], by simp [loadAll], fun x => by simp [loadAll],
      fun w hw => Or.inl hw, id⟩
  | cons f files ih =>
    intro st h
    rcases f with ⟨nm, fc⟩
    rcases hlf : loadFile st fc with ⟨st1, cnt1, err1⟩
    simp only [loadAll, hlf] at h ⊢
    rw [List.forall_mem_cons] at h
    have herr : err1 = none := h.1
    subst herr
    obtain ⟨n1, hm1, ht1, hp1, hn1⟩ := loadFile_ok_inv hlf
    obtain ⟨n2, hm2, ht2, hp2, hn2⟩ := ih st1 h.2
    refine ⟨n1 ++ n2, ?_, ?_, ?_, fun hn => hn2 (hn1 hn)⟩
    · rw [hm2, hm1, List.append_assoc]
    · intro x
      rw [ht2 x, ht1 x]
      constructor
      · rintro ((hx | ⟨m, hm, hv⟩) | ⟨m, hm, hv⟩)
        · exact Or.inl hx
        · exact Or.inr ⟨m, by simp [hm], hv⟩
        · exact Or.inr ⟨m, by simp [hm], hv⟩
      · rintro (hx | ⟨m, hm, hv⟩)
        · exact Or.inl (Or.inl hx)
        · rcases List.mem_append.mp hm with hm | hm
          · exact Or.inl (Or.inr ⟨m, hm, hv⟩)
          · exact Or.inr ⟨m, hm, hv⟩
    · intro w hw
      rcases hp2 w hw with hw2 | ⟨m, hm, hv⟩
      · rcases hp1 w hw2 with hw1 | ⟨m, hm, hv⟩
        · exact Or.inl hw1
        · exact Or.inr ⟨m, by simp [hm], hv⟩
      · exact Or.inr ⟨m, by simp [hm], hv⟩

/-- In a clean run the `teams` set holds, up to Python `==`, exactly the
values of the three team fields (with `''` defaults) over accepted
messages; its elements come verbatim from those fields, and no two of them
are `==`-equal. -/
theorem loadRun_teams {files : List (String × FileContent)}
    (hclean : ∀ r ∈ (loadRun files).2, r.err = none) :
    (∀ x, (∃ w ∈ (loadRun files).1.teams, pyEqV w x = true) ↔
      ∃ m ∈ (loadRun files).1.messages, ∃ w ∈ teamVals m, pyEqV w x = true) ∧
    (∀ w ∈ (loadRun files).1.teams,
      ∃ m ∈ (loadRun files).1.messages, w ∈ teamVals m) ∧
    (loadRun files).1.teams.Pairwise (fun a b => pyEqV a b = false) := by
  obtain ⟨new, hm, ht, hp, hn⟩ := loadAll_ok_inv files initState hclean
  have hmsgs : (loadRun files).1.messages = new := by
    simpa [initState] using hm
  refine ⟨?_, ?_, hn (by simp [initState])⟩
  · intro x
    rw [loadRun] at hmsgs ⊢
    rw [ht x, hmsgs]
    simp [initState]
  · intro w hw
    rw [loadRun] at hmsgs ⊢
    rcases hp w hw with hw2 | ⟨m, hm2, hv⟩
    · simp [initState] at hw2
    · exact ⟨m, by rw [hmsgs]; exact hm2, hv⟩

/-- The `max` fold keeps an element of the list. -/
theorem foldl_maxcount_mem (l : List JVal) : ∀ (xs : List JVal) (x : JVal),
    (xs.foldl (fun acc y => if l.count acc < l.count y then y else acc) x)
      ∈ x :: xs
  | [], x => by simp
  | y :: ys, x => by
    simp only [List.foldl_cons]
    have h := foldl_maxcount_mem l ys (if l.count x < l.count y then y else x)
    rcases List.mem_cons.mp h with h | h
    · rw [h]
      by_cases hc : l.count x < l.count y
      · rw [if_pos hc]; simp
      · rw [if_neg hc]; simp
    · simp [h]

theorem pyMaxByCount_mem {l : List JVal} {v : JVal}
    (h : pyMaxByCount l = some v) : v ∈ l := by
  cases l with
  | nil => exact Option.noConfusion h
  | cons x xs =>
    rw [pyMaxByCount] at h
    simp only [Option.some.injEq] at h
    subst h
    exact foldl_maxcount_mem _ xs x

/-- C4 (amended): the loader collects the team field values into a SET
under Python `==`/`hash` identity (so `True` and `1` collapse) —
deduplicated, and with the empty string inserted for each absent
`team`/`source_team`/`user_team` field — not a multiset of non-empty
values.  `max(teams, key=list(teams).count)` therefore sees every element
with count 1, and returns whichever element the set's iteration order
presents first; all that is determined is that the result is an element of
the set.  When the set is a singleton `{v}` — in particular `{''}` when no
accepted message carries any team field — the team id is `v`.  The
unknown-team sentinel is used exactly when the set is empty; in a clean
completed run the set is provably non-empty (this theorem's conclusions
imply it), while a completed run in which every accepted message raised
before the `teams.add` calls (e.g. a null `user_profile` or an unhashable
user id, swallowed per file) does reach line 84 with an empty set and gets
`T_UNKNOWN` — such runs are outside this theorem's clean hypothesis.
(As stated — non-empty values with multiplicity, sentinel when that
collection is empty — the claim is false; see `c4_counterexample`.) -/
theorem c4_team_set {enum : List JVal → List JVal} {now inputDir : String}
    {outputZip : Option String} {files : List (String × FileContent)}
    {out : RunOutput}
    (h : runCore enum now inputDir outputZip files = .ok out)
    (hclean : ∀ r ∈ (loadRun files).2, r.err = none)
    (henum : ∀ l, (enum l).Perm l) :
    (∀ x, (∃ w ∈ (loadRun files).1.teams, pyEqV w x = true) ↔
      ∃ m ∈ (loadRun files).1.messages, ∃ w ∈ teamVals m, pyEqV w x = true) ∧
    (∀ w ∈ (loadRun files).1.teams,
      ∃ m ∈ (loadRun files).1.messages, w ∈ teamVals m) ∧
    (loadRun files).1.teams.Pairwise (fun a b => pyEqV a b = false) ∧
    (loadRun files).1.teams.Nodup ∧
    out.teamId ∈ (loadRun files).1.teams ∧
    (∀ v, (loadRun files).1.teams = [v] → out.teamId = v) := by
  obtain ⟨hmem, hprov, hpair⟩ := loadRun_teams hclean
  obtain ⟨-, -, -, -, -, -, -, -, -, -, -, -, -, htid, -⟩ := runCore_ok_inv h
  have hne : (loadRun files).1.messages ≠ [] := by
    intro hnil
    simp [runCore, hnil] at h
  have hteamsne : (loadRun files).1.teams ≠ [] := by
    intro htnil
    rcases hms : (loadRun files).1.messages with _ | ⟨m, ms⟩
    · exact hne hms
    · have hx : ∃ w ∈ (loadRun files).1.teams,
          pyEqV w (pyGetD m "team" (jstr "")) = true := by
        rw [hmem]
        exact ⟨m, by rw [hms]; simp, pyGetD m "team" (jstr ""),
          by simp [teamVals], pyEqV_refl _⟩
      rw [htnil] at hx
      simp at hx
  refine ⟨hmem, hprov, hpair,
    hpair.imp (fun hab => ne_of_pyEqV_false hab), ?_, ?_⟩
  · rw [htid]
    unfold teamIdOf
    rw [if_neg (by simpa [List.isEmpty_iff] using hteamsne)]
    rcases he : enum (loadRun files).1.teams with _ | ⟨y, ys⟩
    · exfalso
      have hp := henum (loadRun files).1.teams
      rw [he] at hp
      exact hteamsne (List.Perm.eq_nil hp.symm)
    · have hv : pyMaxByCount (y :: ys) =
          some (ys.foldl (fun acc z =>
            if (y :: ys).count acc < (y :: ys).count z then z else acc) y) := rfl
      rw [hv]
      simp only [Option.getD_some]
      have hmem2 : (ys.foldl (fun acc z =>
          if (y :: ys).count acc < (y :: ys).count z then z else acc) y)
          ∈ y :: ys := foldl_maxcount_mem _ ys y
      have hp := henum (loadRun files).1.teams
      rw [he] at hp
      exact hp.mem_iff.mp hmem2
  · intro v hv
    rw [htid]
    unfold teamIdOf
    rw [hv]
    have hp := henum [v]
    rw [List.perm_singleton.mp hp]
    rfl

/-- The claim's candidate collection (C4): every non-empty
`team`/`source_team`/`user_team` value across accepted messages, with
multiplicity preserved. -/
def specC4_candidates (msgs : List Msg) : List JVal :=
  msgs.flatMap (fun m =>
    ([pyGet m "team", pyGet m "source_team", pyGet m "user_team"].filterMap
      id).filter (fun v => v != jstr ""))

/-- The claim's team id (C4): the most frequent candidate, the fixed
sentinel when the collection is empty.  (Which element wins a frequency tie
is irrelevant to the counterexample, which has an empty collection.) -/
def specC4_teamId (msgs : List Msg) : JVal :=
  match pyMaxByCount (specC4_candidates msgs) with
  | some v => v
  | none => jstr "T_UNKNOWN"

/-- C4 counterexample: one accepted message with no team fields at all.
The claim's candidate collection is empty, so the claimed team id is the
sentinel "T_UNKNOWN"; the code, however, has added the `''` defaults of
`msg.get(...)` to its `teams` set, so the set is `{''}` and the computed
team id is `""`. -/
theorem c4_counterexample :
    ((runCore id "now" "dir" none [("a.json", FileContent.list
        [.map [("type", jstr "message"), ("ts", jstr "1.0")]])]).map
      (fun out => out.teamId) = .ok (jstr "")) ∧
    specC4_teamId (loadRun [("a.json", FileContent.list
        [.map [("type", jstr "message"), ("ts", jstr "1.0")]])]).1.messages
      = jstr "T_UNKNOWN" ∧
    jstr "" ≠ jstr "T_UNKNOWN" := by
  decide

/-- Witness for `c4_team_set` at the concrete run `wFiles`. -/
theorem c4_team_set_witness :
    (runCore id "now" "dir" none wFiles = .ok wOut) ∧
    (∀ r ∈ (loadRun wFiles).2, r.err = none) ∧
    (∀ l : List JVal, (id l).Perm l) ∧
    ((∀ x, (∃ w ∈ (loadRun wFiles).1.teams, pyEqV w x = true) ↔
      ∃ m ∈ (loadRun wFiles).1.messages, ∃ w ∈ teamVals m, pyEqV w x = true) ∧
    (∀ w ∈ (loadRun wFiles).1.teams,
      ∃ m ∈ (loadRun wFiles).1.messages, w ∈ teamVals m) ∧
    (loadRun wFiles).1.teams.Pairwise (fun a b => pyEqV a b = false) ∧
    (loadRun wFiles).1.teams.Nodup ∧
    wOut.teamId ∈ (loadRun wFiles).1.teams ∧
    (∀ v, (loadRun wFiles).1.teams = [v] → wOut.teamId = v)) :=
  ⟨by decide, by decide, fun l => List.Perm.refl l,
    @c4_team_set id "now" "dir" none wFiles wOut (by decide) (by decide)
      (fun l => List.Perm.refl l)⟩

/-! ## User directory (claim C7) -/

/-- `msg.get('user')` as the directory key (None when absent). -/
def userKey (m : Msg) : JVal :=
  (pyGet m "user").getD jnull

/-- The profile object of a message (empty for a non-object profile; in a
clean run every registering message has an object profile). -/
def profileOf (m : Msg) : List (String × JPrim) :=
  match pyGetD m "user_profile" jnull with
  | .obj p => p
  | _ => []

/-- The registration test of line 39 for a given id, minus the
already-known check: truthy `user` Python-equal to `u` and a present
`user_profile` key. -/
def qualifies (m : Msg) (u : JVal) : Prop :=
  truthy (userKey m) = true ∧ pyEqV (userKey m) u = true ∧
    hasKey m "user_profile" = true

instance (m : Msg) (u : JVal) : Decidable (qualifies m u) := by
  unfold qualifies
  infer_instance

/-- The condition under which line 39 actually inserts. -/
def registerCond (st : LoadState) (m : Msg) : Prop :=
  truthy (userKey m) = true ∧ hasKey m "user_profile" = true ∧
    keyMem st.users (userKey m) = false

theorem processAccepted_ok_users {st : LoadState} {cnt : ℕ} {m : Msg}
    {st' : LoadState} {cnt' : ℕ}
    (h : processAccepted st cnt m = (st', cnt', none)) :
    st'.messages = st.messages ++ [m] ∧
    ((¬registerCond st m ∧ st'.users = st.users) ∨
     (registerCond st m ∧
      st'.users = st.users ++ [(userKey m, mkUser m (userKey m) (profileOf m))])) := by
  have hmsg := (processAccepted_ok_inv h).1
  refine ⟨hmsg, ?_⟩
  unfold processAccepted at h
  cases hr : registerUser { st with messages := st.messages ++ [m] } m with
  | error e => rw [hr] at h; simp at h
  | ok st2 =>
    rw [hr] at h
    simp only [Prod.mk.injEq] at h
    obtain ⟨h1, -, h3⟩ := h
    have husers : st'.users = st2.users := by
      rw [← h1, (addTeams_parts st2 m).2]
    unfold registerUser at hr
    split at hr
    · rename_i hcond
      rw [Bool.and_eq_true] at hcond
      obtain ⟨ht, hk⟩ := hcond
      split at hr
      · split at hr
        · rename_i hkm
          simp only [Except.ok.injEq] at hr
          refine Or.inl ⟨?_, by rw [husers, ← hr]⟩
          intro hrc
          obtain ⟨-, -, hnm⟩ := hrc
          rw [show userKey m = (pyGet m "user").getD jnull from rfl, hkm] at hnm
          exact Bool.noConfusion hnm
        · rename_i hkm
          split at hr
          · rename_i p hp
            simp only [Except.ok.injEq] at hr
            refine Or.inr ⟨⟨by simpa [userKey] using ht, hk, ?_⟩, ?_⟩
            · have hf : keyMem st.users ((pyGet m "user").getD jnull) = false := by
                revert hkm
                cases keyMem st.users ((pyGet m "user").getD jnull) <;> simp
              simpa [userKey] using hf
            · rw [husers, ← hr]
              have hpOf : profileOf m = p := by
                unfold profileOf
                rw [hp]
              rw [hpOf]
              rfl
          · exact Except.noConfusion hr
      · exact Except.noConfusion hr
    · rename_i hcond
      simp only [Except.ok.injEq] at hr
      refine Or.inl ⟨?_, by rw [husers, ← hr]⟩
      intro hrc
      obtain ⟨ht, hk, -⟩ := hrc
      apply hcond
      rw [Bool.and_eq_true]
      exact ⟨by simpa [userKey] using ht, hk⟩

theorem keyMem_iff {users : List (JVal × User)} {u : JVal} :
    keyMem users u = true ↔ ∃ kv ∈ users, pyEqV kv.1 u = true := by
  unfold keyMem
  exact List.any_eq_true

theorem keyMem_false_iff {users : List (JVal × User)} {u : JVal} :
    keyMem users u = false ↔ ∀ kv ∈ users, pyEqV kv.1 u = false := by
  constructor
  · intro h kv hkv
    cases hx : pyEqV kv.1 u
    · rfl
    · rw [keyMem_iff.mpr ⟨kv, hkv, hx⟩] at h
      exact Bool.noConfusion h
  · intro hall
    cases hx : keyMem users u
    · rfl
    · obtain ⟨kv, hkv, he⟩ := keyMem_iff.mp hx
      rw [hall kv hkv] at he
      exact Bool.noConfusion he

theorem keyMem_append (users : List (JVal × User)) (k : JVal) (v : User)
    (u : JVal) :
    keyMem (users ++ [(k, v)]) u = (keyMem users u || pyEqV k u) := by
  simp [keyMem, List.any_append]

/-- All-cases description of how one accepted message changes the user
dict: unchanged, or a fresh append. -/
theorem processAccepted_users_cases (st : LoadState) (cnt : ℕ) (m : Msg) :
    (processAccepted st cnt m).1.users = st.users ∨
    (keyMem st.users (userKey m) = false ∧
     (processAccepted st cnt m).1.users
       = st.users ++ [(userKey m, mkUser m (userKey m) (profileOf m))]) := by
  unfold processAccepted
  cases hr : registerUser { st with messages := st.messages ++ [m] } m with
  | error e => exact Or.inl rfl
  | ok st2 =>
    have husers : ((addTeams st2 m).1, cnt + 1, (addTeams st2 m).2).1.users
        = st2.users := (addTeams_parts st2 m).2
    unfold registerUser at hr
    split at hr
    · split at hr
      · split at hr
        · simp only [Except.ok.injEq] at hr
          rw [husers, ← hr]
          exact Or.inl rfl
        · rename_i hkm
          split at hr
          · rename_i p hp
            simp only [Except.ok.injEq] at hr
            refine Or.inr ⟨?_, ?_⟩
            · have hf : keyMem st.users ((pyGet m "user").getD jnull) = false := by
                revert hkm
                cases keyMem st.users ((pyGet m "user").getD jnull) <;> simp
              simpa [userKey] using hf
            · rw [husers, ← hr]
              have hpOf : profileOf m = p := by
                unfold profileOf
                rw [hp]
              rw [hpOf]
              rfl
          · exact Except.noConfusion hr
      · exact Except.noConfusion hr
    · simp only [Except.ok.injEq] at hr
      rw [husers, ← hr]
      exact Or.inl rfl

/-- Keys of the user dict are pairwise distinct under Python equality, at
any point of any run (the insert is guarded by `user_id not in users`). -/
theorem processElem_users_nodup (st : LoadState) (cnt : ℕ) (e : JElem)
    (hnd : (st.users.map (·.1)).Pairwise (fun a b => pyEqV a b = false)) :
    ((processElem st cnt e).1.users.map (·.1)).Pairwise
      (fun a b => pyEqV a b = false) := by
  rcases hacc : acceptsElem e with err | om
  · rw [processElem_err hacc]
    exact hnd
  · cases om with
    | none =>
      rw [processElem_skip hacc]
      exact hnd
    | some m =>
      rw [processElem_accept hacc]
      rcases processAccepted_users_cases st cnt m with hu | ⟨hnm, hu⟩
      · rw [hu]; exact hnd
      · rw [hu]
        have hall := keyMem_false_iff.mp hnm
        simp only [List.map_append, List.map_cons, List.map_nil]
        rw [List.pairwise_append]
        refine ⟨hnd, List.pairwise_singleton _ _, ?_⟩
        intro a ha b hb
        simp only [List.mem_singleton] at hb
        subst hb
        rcases List.mem_map.mp ha with ⟨kv, hkv, hkeq⟩
        subst hkeq
        exact hall kv hkv

/-- The user-directory invariant: an id `u` is a key (membership under
Python `==`) iff some accepted message qualifies for it; each entry was
built from the FIRST qualifying message for its key; keys are pairwise
distinct under Python `==`. -/
def usersInv (st : LoadState) : Prop :=
  (∀ u, keyMem st.users u = true ↔ ∃ m ∈ st.messages, qualifies m u) ∧
  (∀ p ∈ st.users, ∃ pre m post, st.messages = pre ++ m :: post ∧
    p.1 = userKey m ∧ qualifies m p.1 ∧ (∀ m' ∈ pre, ¬ qualifies m' p.1) ∧
    p.2 = mkUser m p.1 (profileOf m)) ∧
  (st.users.map (·.1)).Pairwise (fun a b => pyEqV a b = false)

theorem processAccepted_ok_usersInv {st : LoadState} {cnt : ℕ} {m : Msg}
    {st' : LoadState} {cnt' : ℕ}
    (h : processAccepted st cnt m = (st', cnt', none))
    (hinv : usersInv st) : usersInv st' := by
  obtain ⟨hmsg, hcase⟩ := processAccepted_ok_users h
  obtain ⟨hiff, hfirst, hnd⟩ := hinv
  rcases hcase with ⟨hnc, hu⟩ | ⟨hc, hu⟩
  · refine ⟨?_, ?_, by rw [hu]; exact hnd⟩
    · intro u
      rw [hu, hmsg]
      constructor
      · intro hk
        obtain ⟨m', hm', hq⟩ := (hiff u).mp hk
        exact ⟨m', by simp [hm'], hq⟩
      · rintro ⟨m', hm', hq⟩
        rcases List.mem_append.mp hm' with hm' | hm'
        · exact (hiff u).mpr ⟨m', hm', hq⟩
        · simp only [List.mem_singleton] at hm'
          subst hm'
          obtain ⟨ht, hku, hk⟩ := hq
          have hkm : keyMem st.users (userKey m') = true := by
            cases hx : keyMem st.users (userKey m') with
            | false => exact absurd ⟨ht, hk, hx⟩ hnc
            | true => rfl
          obtain ⟨kv, hkv, he⟩ := keyMem_iff.mp hkm
          exact keyMem_iff.mpr ⟨kv, hkv, pyEqV_trans he hku⟩
    · intro p hp
      rw [hu] at hp
      obtain ⟨pre, m0, post, hsplit, hpk, hq, hpre, hen⟩ := hfirst p hp
      exact ⟨pre, m0, post ++ [m], by rw [hmsg, hsplit]; simp, hpk, hq, hpre, hen⟩
  · obtain ⟨ht, hk, hnm⟩ := hc
    have hall := keyMem_false_iff.mp hnm
    refine ⟨?_, ?_, ?_⟩
    · intro u
      rw [hu, hmsg, keyMem_append, Bool.or_eq_true]
      constructor
      · rintro (hk2 | hk2)
        · obtain ⟨m', hm', hq⟩ := (hiff u).mp hk2
          exact ⟨m', by simp [hm'], hq⟩
        · exact ⟨m, by simp, ht, hk2, hk⟩
      · rintro ⟨m', hm', hq⟩
        rcases List.mem_append.mp hm' with hm' | hm'
        · exact Or.inl ((hiff u).mpr ⟨m', hm', hq⟩)
        · simp only [List.mem_singleton] at hm'
          subst hm'
          exact Or.inr hq.2.1
    · intro p hp
      rw [hu] at hp
      rcases List.mem_append.mp hp with hp | hp
      · obtain ⟨pre, m0, post, hsplit, hpk, hq, hpre, hen⟩ := hfirst p hp
        exact ⟨pre, m0, post ++ [m], by rw [hmsg, hsplit]; simp, hpk, hq, hpre, hen⟩
      · simp only [List.mem_singleton] at hp
        subst hp
        refine ⟨st.messages, m, [], by rw [hmsg], rfl,
          ⟨ht, pyEqV_refl _, hk⟩, ?_, rfl⟩
        intro m' hm' hq'
        have hkm : keyMem st.users (userKey m) = true :=
          (hiff (userKey m)).mpr ⟨m', hm', hq'⟩
        rw [hnm] at hkm
        exact Bool.noConfusion hkm
    · rw [hu]
      simp only [List.map_append, List.map_cons, List.map_nil]
      rw [List.pairwise_append]
      refine ⟨hnd, List.pairwise_singleton _ _, ?_⟩
      intro a ha b hb
      simp only [List.mem_singleton] at hb
      subst hb
      rcases List.mem_map.mp ha with ⟨kv, hkv, hkeq⟩
      subst hkeq
      exact hall kv hkv

theorem processElem_ok_usersInv {st : LoadState} {cnt : ℕ} {e : JElem}
    {st' : LoadState} {cnt' : ℕ}
    (h : processElem st cnt e = (st', cnt', none))
    (hinv : usersInv st) : usersInv st' := by
  rcases hacc : acceptsElem e with err | om
  · rw [processElem_err hacc] at h
    simp at h
  · cases om with
    | none =>
      rw [processElem_skip hacc] at h
      simp only [Prod.mk.injEq] at h
      obtain ⟨h1, -, -⟩ := h
      subst h1
      exact hinv
    | some m =>
      rw [processElem_accept hacc] at h
      exact processAccepted_ok_usersInv h hinv

theorem processElems_ok_usersInv : ∀ {es : List JElem} {st : LoadState}
    {cnt : ℕ} {st' : LoadState} {cnt' : ℕ},
    processElems st cnt es = (st', cnt', none) → usersInv st → usersInv st' := by
  intro es
  induction es with
  | nil =>
    intro st cnt st' cnt' h hinv
    simp only [processElems, Prod.mk.injEq] at h
    obtain ⟨h1, -, -⟩ := h
    subst h1
    exact hinv
  | cons e es ih =>
    intro st cnt st' cnt' h hinv
    rcases hpe : processElem st cnt e with ⟨st1, cnt1, err⟩
    rw [processElems, hpe] at h
    cases err with
    | some err => simp at h
    | none => exact ih h (processElem_ok_usersInv hpe hinv)

theorem loadFile_ok_usersInv {st : LoadState} {fc : FileContent}
    {st' : LoadState} {cnt' : ℕ}
    (h : loadFile st fc = (st', cnt', none)) (hinv : usersInv st) :
    usersInv st' := by
  cases fc with
  | unreadable => simp [loadFile] at h
  | nonList =>
    simp only [loadFile, Prod.mk.injEq] at h
    obtain ⟨h1, -, -⟩ := h
    subst h1
    exact hinv
  | list es =>
    rcases hpe : processElems st 0 es with ⟨st1, cnt1, err⟩
    rw [loadFile, hpe] at h
    cases err with
    | some err => simp at h
    | none =>
      simp only [Prod.mk.injEq] at h
      obtain ⟨h1, -, -⟩ := h
      subst h1
      exact processElems_ok_usersInv hpe hinv

theorem loadAll_ok_usersInv : ∀ (files : List (String × FileContent))
    (st : LoadState),
    (∀ r ∈ (loadAll st files).2, r.err = none) → usersInv st →
    usersInv (loadAll st files).1 := by
  intro files
  induction files with
  | nil => intro st _ hinv; exact hinv
  | cons f files ih =>
    intro st h hinv
    rcases f with ⟨nm, fc⟩
    rcases hlf : loadFile st fc with ⟨st1, cnt1, err1⟩
    simp only [loadAll, hlf] at h ⊢
    rw [List.forall_mem_cons] at h
    have herr : err1 = none := h.1
    subst herr
    exact ih st1 h.2 (loadFile_ok_usersInv hlf hinv)

/-- C7 (amended): at every point of every run the user directory has no
two entries whose ids are Python-equal (`==`, so `True` and `1` are one
key): the per-element step preserves pairwise key distinctness, and the
final directory's keys are pairwise distinct, hence duplicate-free.  In a
load in which no file swallowed an exception, an id `u` is a key (under
`==`) iff SOME accepted message carries a truthy `user` equal to `u`
together with a present `user_profile` key — not necessarily the id's
first occurrence — and each entry was built by `mkUser` from the FIRST
such qualifying message, so later messages never overwrite an existing
entry.  (Runs in which a file swallowed a mid-message exception — a
non-dict `user_profile` raises `AttributeError` and an unhashable user id
raises `TypeError` at `user_id not in users`, both aborting the file with
nothing registered — are excluded by the clean hypothesis: in them a
qualifying message need not produce an entry.  As stated — "only ids that
appeared with a `user_profile` on their first occurrence" — the claim is
false; see `c7_counterexample`.) -/
theorem c7_user_directory {files : List (String × FileContent)}
    (hclean : ∀ r ∈ (loadRun files).2, r.err = none) :
    (∀ (st : LoadState) (cnt : ℕ) (e : JElem),
      (st.users.map (·.1)).Pairwise (fun a b => pyEqV a b = false) →
      ((processElem st cnt e).1.users.map (·.1)).Pairwise
        (fun a b => pyEqV a b = false)) ∧
    ((loadRun files).1.users.map (·.1)).Pairwise
      (fun a b => pyEqV a b = false) ∧
    ((loadRun files).1.users.map (·.1)).Nodup ∧
    (∀ u, keyMem (loadRun files).1.users u = true ↔
      ∃ m ∈ (loadRun files).1.messages, qualifies m u) ∧
    (∀ p ∈ (loadRun files).1.users,
      ∃ pre m post, (loadRun files).1.messages = pre ++ m :: post ∧
        p.1 = userKey m ∧ qualifies m p.1 ∧ (∀ m' ∈ pre, ¬ qualifies m' p.1) ∧
        p.2 = mkUser m p.1 (profileOf m)) := by
  have hinv0 : usersInv initState := by
    refine ⟨fun u => ?_, fun p hp => ?_, by simp [initState]⟩
    · simp [initState, keyMem]
    · simp [initState] at hp
  have hinv := loadAll_ok_usersInv files initState hclean hinv0
  exact ⟨processElem_users_nodup, hinv.2.2,
    hinv.2.2.imp (fun hab => ne_of_pyEqV_false hab), hinv.1, hinv.2.1⟩

/-- Input on which the directory contains an id whose first occurrence had
no profile. -/
def c7Files : List (String × FileContent) :=
  [("a.json", .list
      [.map [("type", jstr "message"), ("ts", jstr "1.0"), ("user", jstr "U1")],
       .map [("type", jstr "message"), ("ts", jstr "2.0"), ("user", jstr "U1"),
             ("user_profile", .obj [("name", .str "alice")])]])]

/-- C7 counterexample: `U1`'s first occurrence in the accepted sequence
carries no `user_profile`, yet `U1` is registered (by its second message),
so the directory does not only contain ids that appeared with a
`user_profile` on their first occurrence. -/
theorem c7_counterexample :
    ((loadRun c7Files).1.users.map (·.1) = [jstr "U1"]) ∧
    (((loadRun c7Files).1.messages.find?
        (fun m => userKey m == jstr "U1")).map
      (fun m => hasKey m "user_profile") = some false) := by
  decide

/-- Witness for `c7_user_directory` at the concrete run `wFiles`. -/
theorem c7_user_directory_witness :
    (∀ r ∈ (loadRun wFiles).2, r.err = none) ∧
    (((loadRun wFiles).1.users.map (·.1)).Nodup ∧
      ∀ u, keyMem (loadRun wFiles).1.users u = true ↔
        ∃ m ∈ (loadRun wFiles).1.messages, qualifies m u) :=
  ⟨by decide,
    ⟨(c7_user_directory (by decide)).2.2.1,
     (c7_user_directory (by decide)).2.2.2.1⟩⟩

/-- C5 (code bug): a single accepted message whose `ts` is present but not
parsable as a number makes the whole run raise an uncaught `ValueError` at
the sort of line 71 — before the skip-with-warning path of lines 76-81 can
run — so no archive and no report are produced, contradicting the
documented recover-and-continue behaviour. -/
theorem c5_unparsable_ts_is_fatal :
    runCore id "now" "dir" none [("a.json", FileContent.list
      [.map [("type", jstr "message"), ("ts", jstr "abc")]])]
      = .error .valueError := by
  decide

/-- C8: if the accepted-message sequence is empty after loading all input
files, the run aborts with the "no valid messages" `ValueError` before
producing anything — `runCore` returns an error, and in the model every
output (archive entries, `report.txt` lines) exists only in the `.ok`
result, so nothing is produced; the error propagates to the caller. -/
theorem c8_empty_aborts (enum : List JVal → List JVal) (now inputDir : String)
    (outputZip : Option String) (files : List (String × FileContent))
    (h : (loadRun files).1.messages = []) :
    runCore enum now inputDir outputZip files = .error .noValidMessages := by
  unfold runCore
  simp [h]

/-- Witness for `c8_empty_aborts`: a run whose only file is an empty array. -/
theorem c8_empty_aborts_witness :
    ((loadRun [("a.json", FileContent.list [])]).1.messages = []) ∧
    runCore id "now" "dir" none [("a.json", FileContent.list [])]
      = .error .noValidMessages :=
  ⟨by decide, c8_empty_aborts id "now" "dir" none _ (by decide)⟩

/-! ## Report summary line (claim C10) -/

/-- C10: whenever the report's total input message count equals its total
output message count, its final line is the hardcoded string "Summary: All
messages from the 55 JSON files were successfully processed." — the
constant 55 appears regardless of the actual number of JSON files
processed (the theorem quantifies over arbitrary `jsonFiles`). -/
theorem c10_summary_line (now inputDir outputZip : String)
    (jsonFiles : List String) (info : List FileResult)
    (outCounts : List (String × ℕ))
    (h : (info.map (·.count)).sum = (outCounts.map (·.2)).sum) :
    (reportLines now inputDir outputZip jsonFiles info outCounts).getLast?
      = some "Summary: All messages from the 55 JSON files were successfully processed." := by
  simp only [reportLines, List.getLast?_append]
  simp [h]

/-- Witness for `c10_summary_line` on a run that processed 2 JSON files
(not 55): with equal totals the summary line still says 55. -/
theorem c10_summary_line_witness :
    ((([] : List FileResult).map (·.count)).sum
        = (([] : List (String × ℕ)).map (·.2)).sum) ∧
    (reportLines "now" "dir" "out.zip" ["a.json", "b.json"] [] []).getLast?
      = some "Summary: All messages from the 55 JSON files were successfully processed." :=
  ⟨rfl, c10_summary_line "now" "dir" "out.zip" ["a.json", "b.json"] [] [] rfl⟩

/-! ## Influence of the `source_team` / `user_team` fields (claim C9) -/

/-- Two messages agree on every field other than `source_team` and
`user_team`; the (un)hashability of those two fields also agrees, so the
substitution cannot turn a working `teams.add` into a `TypeError` (team
fields are strings in practice, so this is no real restriction). -/
def agreeExcept (m m' : Msg) : Prop :=
  (∀ k, k ≠ "source_team" → k ≠ "user_team" → pyGet m k = pyGet m' k) ∧
  hashable (pyGetD m "source_team" (jstr ""))
    = hashable (pyGetD m' "source_team" (jstr "")) ∧
  hashable (pyGetD m "user_team" (jstr ""))
    = hashable (pyGetD m' "user_team" (jstr ""))

theorem agreeExcept_refl (m : Msg) : agreeExcept m m :=
  ⟨fun _ _ _ => rfl, rfl, rfl⟩

theorem agreeExcept_getD {m m' : Msg} (h : agreeExcept m m') (k : String)
    (d : JVal) (h1 : k ≠ "source_team") (h2 : k ≠ "user_team") :
    pyGetD m k d = pyGetD m' k d := by
  unfold pyGetD
  rw [h.1 k h1 h2]

theorem pyGet_eq_none_of_not_mem {m : Msg} {k : String}
    (h : k ∉ m.map (·.1)) : pyGet m k = none := by
  unfold pyGet
  rw [List.find?_eq_none.mpr]
  · rfl
  · intro kv hkv hbeq
    exact h (List.mem_map.mpr ⟨kv, hkv, by simpa using hbeq⟩)

/-- Executable check of `agreeExcept` (it suffices to compare the keys
actually occurring in either message). -/
def agreeExceptB (m m' : Msg) : Bool :=
  ((m.map (·.1) ++ m'.map (·.1)).all fun k =>
    k == "source_team" || k == "user_team" || pyGet m k == pyGet m' k) &&
  (hashable (pyGetD m "source_team" (jstr ""))
    == hashable (pyGetD m' "source_team" (jstr ""))) &&
  (hashable (pyGetD m "user_team" (jstr ""))
    == hashable (pyGetD m' "user_team" (jstr "")))

theorem agreeExceptB_sound {m m' : Msg} (h : agreeExceptB m m' = true) :
    agreeExcept m m' := by
  unfold agreeExceptB at h
  simp only [Bool.and_eq_true, beq_iff_eq, List.all_eq_true] at h
  obtain ⟨⟨hall, h2⟩, h3⟩ := h
  refine ⟨fun k hk1 hk2 => ?_, h2, h3⟩
  by_cases hmem : k ∈ m.map (·.1) ++ m'.map (·.1)
  · have := hall k hmem
    simp only [Bool.or_eq_true, beq_iff_eq] at this
    rcases this with ((hc | hc) | hc)
    · exact absurd hc hk1
    · exact absurd hc hk2
    · exact hc
  · rw [List.mem_append] at hmem
    push_neg at hmem
    rw [pyGet_eq_none_of_not_mem hmem.1, pyGet_eq_none_of_not_mem hmem.2]

/-- Elementwise relation on parsed array elements: identical except that
message objects may differ per `agreeExcept`. -/
inductive ElemRel : JElem → JElem → Prop
  | prim (p : JPrim) : ElemRel (.prim p) (.prim p)
  | arr (a : List JPrim) : ElemRel (.arr a) (.arr a)
  | map {m m' : Msg} : agreeExcept m m' → ElemRel (.map m) (.map m')

/-- Filewise relation: identical shape, related elements. -/
inductive FileRel : FileContent → FileContent → Prop
  | unreadable : FileRel .unreadable .unreadable
  | nonList : FileRel .nonList .nonList
  | list {es es' : List JElem} : List.Forall₂ ElemRel es es' →
      FileRel (.list es) (.list es')

/-- Two input-directory listings that differ only in `source_team` /
`user_team` field values of their messages. -/
def filesRel (files files' : List (String × FileContent)) : Prop :=
  List.Forall₂ (fun f f' => f.1 = f'.1 ∧ FileRel f.2 f'.2) files files'

/-- The loader-state coupling the relation preserves: pointwise-related
message sequences and literally equal user dicts (the `teams` sets are
allowed to drift — they feed only the dead `team_id`). -/
def stRel (st st' : LoadState) : Prop :=
  List.Forall₂ agreeExcept st.messages st'.messages ∧ st.users = st'.users

theorem f2_append {α : Type} {R : α → α → Prop} :
    ∀ {l1 l2 l3 l4 : List α}, List.Forall₂ R l1 l2 → List.Forall₂ R l3 l4 →
      List.Forall₂ R (l1 ++ l3) (l2 ++ l4)
  | _, _, _, _, .nil, h2 => h2
  | _, _, _, _, .cons h t, h2 => .cons h (f2_append t h2)

theorem acceptsElem_rel {e e' : JElem} (h : ElemRel e e') :
    (∃ err, acceptsElem e = .error err ∧ acceptsElem e' = .error err) ∨
    (acceptsElem e = .ok none ∧ acceptsElem e' = .ok none) ∨
    (∃ m m', agreeExcept m m' ∧ acceptsElem e = .ok (some m) ∧
      acceptsElem e' = .ok (some m')) := by
  cases h with
  | prim p =>
    rcases hacc : acceptsElem (.prim p) with err | om
    · exact Or.inl ⟨err, rfl, rfl⟩
    · cases om with
      | none => exact Or.inr (Or.inl ⟨rfl, rfl⟩)
      | some m => exact Or.inr (Or.inr ⟨m, m, agreeExcept_refl m, rfl, rfl⟩)
  | arr a =>
    rcases hacc : acceptsElem (.arr a) with err | om
    · exact Or.inl ⟨err, rfl, rfl⟩
    · cases om with
      | none => exact Or.inr (Or.inl ⟨rfl, rfl⟩)
      | some m => exact Or.inr (Or.inr ⟨m, m, agreeExcept_refl m, rfl, rfl⟩)
  | map hm =>
    rename_i m m'
    have hty : pyGetD m "type" jnull = pyGetD m' "type" jnull :=
      agreeExcept_getD hm "type" jnull (by decide) (by decide)
    simp only [acceptsElem, ← hty]
    by_cases hc : (pyGetD m "type" jnull == jstr "message") = true
    · simp only [if_pos hc]
      exact Or.inr (Or.inr ⟨m, m', hm, rfl, rfl⟩)
    · simp only [if_neg hc]
      exact Or.inr (Or.inl ⟨by simp, by simp⟩)

theorem mkUser_congr {m m' : Msg} (hm : agreeExcept m m') (uid : JVal)
    (p : List (String × JPrim)) : mkUser m uid p = mkUser m' uid p := by
  unfold mkUser
  rw [agreeExcept_getD hm "team" (jstr "") (by decide) (by decide)]

theorem registerUser_rel {st st' : LoadState} {m m' : Msg}
    (hm : agreeExcept m m') (hu : st.users = st'.users) :
    (∃ e, registerUser st m = .error e ∧ registerUser st' m' = .error e) ∨
    (∃ us2, registerUser st m = .ok { st with users := us2 } ∧
      registerUser st' m' = .ok { st' with users := us2 }) := by
  have hg1 : pyGet m "user" = pyGet m' "user" :=
    hm.1 "user" (by decide) (by decide)
  have hg2 : pyGet m "user_profile" = pyGet m' "user_profile" :=
    hm.1 "user_profile" (by decide) (by decide)
  have hgd2 : pyGetD m "user_profile" jnull = pyGetD m' "user_profile" jnull := by
    unfold pyGetD
    rw [hg2]
  simp only [registerUser, hasKey, ← hg1, ← hg2, ← hgd2, ← hu]
  by_cases hc : (truthy ((pyGet m "user").getD jnull) &&
      (pyGet m "user_profile").isSome) = true
  · simp only [if_pos hc]
    by_cases hh : hashable ((pyGet m "user").getD jnull) = true
    · simp only [if_pos hh]
      by_cases hkm : keyMem st.users ((pyGet m "user").getD jnull) = true
      · simp only [if_pos hkm]
        exact Or.inr ⟨st.users, rfl, by rw [hu]⟩
      · simp only [if_neg hkm]
        rcases hup : pyGetD m "user_profile" jnull with pr | a | pl
        · exact Or.inl ⟨.attrError, rfl, rfl⟩
        · exact Or.inl ⟨.attrError, rfl, rfl⟩
        · refine Or.inr ⟨st.users ++
            [((pyGet m "user").getD jnull,
              mkUser m ((pyGet m "user").getD jnull) pl)], rfl, ?_⟩
          rw [mkUser_congr hm]
    · simp only [if_neg hh]
      exact Or.inl ⟨.typeError, rfl, rfl⟩
  · simp only [if_neg hc]
    exact Or.inr ⟨st.users, rfl, by rw [hu]⟩

theorem addTeams_err_eq {st st' : LoadState} {m m' : Msg}
    (hm : agreeExcept m m') :
    (addTeams st m).2 = (addTeams st' m').2 := by
  have h1 : pyGetD m "team" (jstr "") = pyGetD m' "team" (jstr "") :=
    agreeExcept_getD hm "team" (jstr "") (by decide) (by decide)
  obtain ⟨-, h2, h3⟩ := hm
  simp only [addTeams, setAddChecked, ← h1, ← h2, ← h3]
  by_cases hh1 : hashable (pyGetD m "team" (jstr "")) = true <;>
    by_cases hh2 : hashable (pyGetD m "source_team" (jstr "")) = true <;>
      by_cases hh3 : hashable (pyGetD m "user_team" (jstr "")) = true <;>
        simp [hh1, hh2, hh3]

theorem processAccepted_rel {st st' : LoadState} {cnt : ℕ} {m m' : Msg}
    (hm : agreeExcept m m') (hst : stRel st st') :
    stRel (processAccepted st cnt m).1 (processAccepted st' cnt m').1 ∧
    (processAccepted st cnt m).2.1 = (processAccepted st' cnt m').2.1 ∧
    (processAccepted st cnt m).2.2 = (processAccepted st' cnt m').2.2 := by
  obtain ⟨hmsgs, hu⟩ := hst
  have hmsgs2 : List.Forall₂ agreeExcept (st.messages ++ [m])
      (st'.messages ++ [m']) :=
    f2_append hmsgs (List.Forall₂.cons hm List.Forall₂.nil)
  unfold processAccepted
  rcases @registerUser_rel { st with messages := st.messages ++ [m] }
      { st' with messages := st'.messages ++ [m'] } m m' hm hu with
    ⟨e, he, he'⟩ | ⟨us2, hok, hok'⟩
  · rw [he, he']
    exact ⟨⟨hmsgs2, hu⟩, rfl, rfl⟩
  · rw [hok, hok']
    dsimp only
    refine ⟨⟨?_, ?_⟩, rfl, addTeams_err_eq hm⟩
    · rw [(addTeams_parts _ m).1, (addTeams_parts _ m').1]
      exact hmsgs2
    · rw [(addTeams_parts _ m).2, (addTeams_parts _ m').2]

theorem processElem_rel {st st' : LoadState} {cnt : ℕ} {e e' : JElem}
    (he : ElemRel e e') (hst : stRel st st') :
    stRel (processElem st cnt e).1 (processElem st' cnt e').1 ∧
    (processElem st cnt e).2.1 = (processElem st' cnt e').2.1 ∧
    (processElem st cnt e).2.2 = (processElem st' cnt e').2.2 := by
  rcases acceptsElem_rel he with ⟨err, h1, h2⟩ | ⟨h1, h2⟩ | ⟨m, m', hm, h1, h2⟩
  · rw [processElem_err h1, processElem_err h2]
    exact ⟨hst, rfl, rfl⟩
  · rw [processElem_skip h1, processElem_skip h2]
    exact ⟨hst, rfl, rfl⟩
  · rw [processElem_accept h1, processElem_accept h2]
    exact processAccepted_rel hm hst

theorem processElems_rel {es es' : List JElem}
    (hf : List.Forall₂ ElemRel es es') :
    ∀ {st st' : LoadState} {cnt : ℕ}, stRel st st' →
    stRel (processElems st cnt es).1 (processElems st' cnt es').1 ∧
    (processElems st cnt es).2.1 = (processElems st' cnt es').2.1 ∧
    (processElems st cnt es).2.2 = (processElems st' cnt es').2.2 := by
  induction hf with
  | nil =>
    intro st st' cnt hst
    exact ⟨hst, rfl, rfl⟩
  | cons he hes ih =>
    intro st st' cnt hst
    rename_i e e' es es'
    obtain ⟨h1, h2, h3⟩ := @processElem_rel st st' cnt e e' he hst
    rcases hpe : processElem st cnt e with ⟨stA, cntA, errA⟩
    rcases hpe' : processElem st' cnt e' with ⟨stB, cntB, errB⟩
    rw [hpe, hpe'] at h1 h2 h3
    dsimp only at h1 h2 h3
    subst h2
    subst h3
    simp only [processElems, hpe, hpe']
    cases errA with
    | none => exact ih h1
    | some err => exact ⟨h1, rfl, rfl⟩

theorem loadFile_rel {st st' : LoadState} {fc fc' : FileContent}
    (hf : FileRel fc fc') (hst : stRel st st') :
    stRel (loadFile st fc).1 (loadFile st' fc').1 ∧
    (loadFile st fc).2.1 = (loadFile st' fc').2.1 ∧
    (loadFile st fc).2.2 = (loadFile st' fc').2.2 := by
  cases hf with
  | unreadable => exact ⟨hst, rfl, rfl⟩
  | nonList => exact ⟨hst, rfl, rfl⟩
  | list hes =>
    rename_i es es'
    obtain ⟨h1, h2, h3⟩ := @processElems_rel es es' hes st st' 0 hst
    rcases hpe : processElems st 0 es with ⟨stA, cntA, errA⟩
    rcases hpe' : processElems st' 0 es' with ⟨stB, cntB, errB⟩
    rw [hpe, hpe'] at h1 h2 h3
    dsimp only at h1 h2 h3
    subst h2
    subst h3
    simp only [loadFile, hpe, hpe']
    cases errA with
    | none => exact ⟨h1, rfl, rfl⟩
    | some err => exact ⟨h1, rfl, rfl⟩

theorem loadAll_rel : ∀ {files files' : List (String × FileContent)}
    {st st' : LoadState}, filesRel files files' → stRel st st' →
    stRel (loadAll st files).1 (loadAll st' files').1 ∧
    (loadAll st files).2 = (loadAll st' files').2 := by
  intro files
  induction files with
  | nil =>
    intro files' st st' hrel hst
    cases hrel
    exact ⟨hst, rfl⟩
  | cons f files ih =>
    intro files' st st' hrel hst
    cases hrel with
    | cons hf hfs =>
      rename_i f' files'
      rcases f with ⟨nm, fc⟩
      rcases f' with ⟨nm', fc'⟩
      obtain ⟨hnm, hfc⟩ := hf
      obtain ⟨h1, h2, h3⟩ := loadFile_rel hfc hst
      obtain ⟨g1, g2⟩ := ih hfs h1
      simp only [loadAll]
      refine ⟨g1, ?_⟩
      dsimp only at hnm h2 h3 g2 ⊢
      rw [g2, h2, h3, hnm]

/-- Related keyed entries: equal sort keys, related messages. -/
def pairRel (p p' : ℚ × Msg) : Prop :=
  p.1 = p'.1 ∧ agreeExcept p.2 p'.2

theorem sortKey_eq {m m' : Msg} (hm : agreeExcept m m') :
    sortKey m = sortKey m' := by
  unfold sortKey
  rw [agreeExcept_getD hm "ts" (jnum 0) (by decide) (by decide)]

theorem keyedMessages_cons (m : Msg) (ms : List Msg) :
    keyedMessages (m :: ms) = (sortKey m).bind (fun q =>
      (keyedMessages ms).map (fun ks => (q, m) :: ks)) := by
  simp only [keyedMessages, List.mapM_cons]
  cases hk : sortKey m with
  | none => simp
  | some q =>
    cases hks : List.mapM (fun m => (sortKey m).map (fun q => (q, m))) ms with
    | none => simp [hks]
    | some ks => simp [hks]

theorem keyedMessages_rel : ∀ {ms ms' : List Msg},
    List.Forall₂ agreeExcept ms ms' →
    (keyedMessages ms = none ∧ keyedMessages ms' = none) ∨
    (∃ ks ks', List.Forall₂ pairRel ks ks' ∧
      keyedMessages ms = some ks ∧ keyedMessages ms' = some ks') := by
  intro ms ms' hf
  induction hf with
  | nil => exact Or.inr ⟨[], [], List.Forall₂.nil, rfl, rfl⟩
  | cons hm hms ih =>
    rename_i m m' ms ms'
    have hkey := sortKey_eq hm
    rw [keyedMessages_cons, keyedMessages_cons, ← hkey]
    cases hsk : sortKey m with
    | none => exact Or.inl ⟨rfl, rfl⟩
    | some q =>
      rcases ih with ⟨h1, h2⟩ | ⟨ks, ks', hrel, h1, h2⟩
      · rw [h1, h2]
        exact Or.inl ⟨rfl, rfl⟩
      · rw [h1, h2]
        exact Or.inr ⟨(q, m) :: ks, (q, m') :: ks',
          List.Forall₂.cons ⟨rfl, hm⟩ hrel, rfl, rfl⟩

theorem orderedInsert_rel {p p' : ℚ × Msg} (hp : pairRel p p') :
    ∀ {l l' : List (ℚ × Msg)}, List.Forall₂ pairRel l l' →
    List.Forall₂ pairRel
      (List.orderedInsert (fun a b => a.1 ≤ b.1) p l)
      (List.orderedInsert (fun a b => a.1 ≤ b.1) p' l') := by
  intro l l' hf
  induction hf with
  | nil => exact List.Forall₂.cons hp List.Forall₂.nil
  | cons hq hqs ih =>
    rename_i q q' l l'
    simp only [List.orderedInsert]
    by_cases hle : p.1 ≤ q.1
    · rw [if_pos hle, if_pos (hp.1 ▸ hq.1 ▸ hle)]
      exact List.Forall₂.cons hp (List.Forall₂.cons hq hqs)
    · rw [if_neg hle, if_neg (hp.1 ▸ hq.1 ▸ hle)]
      exact List.Forall₂.cons hq ih

theorem insertionSort_rel : ∀ {l l' : List (ℚ × Msg)},
    List.Forall₂ pairRel l l' →
    List.Forall₂ pairRel
      (List.insertionSort (fun a b => a.1 ≤ b.1) l)
      (List.insertionSort (fun a b => a.1 ≤ b.1) l') := by
  intro l l' hf
  induction hf with
  | nil => exact List.Forall₂.nil
  | cons hp hps ih => exact orderedInsert_rel hp ih

theorem f2_map_snd : ∀ {ks ks' : List (ℚ × Msg)},
    List.Forall₂ pairRel ks ks' →
    List.Forall₂ agreeExcept (ks.map (·.2)) (ks'.map (·.2))
  | _, _, .nil => .nil
  | _, _, .cons h t => .cons h.2 (f2_map_snd t)

/-- Related buckets: same day, pointwise-related message lists. -/
def bucketRel (b b' : ℤ × List Msg) : Prop :=
  b.1 = b'.1 ∧ List.Forall₂ agreeExcept b.2 b'.2

theorem addToBucket_rel {d : ℤ} {m m' : Msg} (hm : agreeExcept m m') :
    ∀ {acc acc' : List (ℤ × List Msg)}, List.Forall₂ bucketRel acc acc' →
    List.Forall₂ bucketRel (addToBucket acc d m) (addToBucket acc' d m') := by
  intro acc acc' hf
  induction hf with
  | nil =>
    exact List.Forall₂.cons ⟨rfl, List.Forall₂.cons hm List.Forall₂.nil⟩
      List.Forall₂.nil
  | cons hb hbs ih =>
    rename_i b b' acc acc'
    rcases b with ⟨d0, l⟩
    rcases b' with ⟨d0', l'⟩
    obtain ⟨hd0, hl⟩ := hb
    dsimp only at hd0 hl
    subst hd0
    simp only [addToBucket]
    by_cases hd : d0 = d
    · rw [if_pos hd, if_pos hd]
      exact List.Forall₂.cons
        ⟨rfl, f2_append hl (List.Forall₂.cons hm List.Forall₂.nil)⟩ hbs
    · rw [if_neg hd, if_neg hd]
      exact List.Forall₂.cons ⟨rfl, hl⟩ ih

theorem bucketStep_rel {acc acc' : List (ℤ × List Msg)} {m m' : Msg}
    (hm : agreeExcept m m') (hacc : List.Forall₂ bucketRel acc acc') :
    (∃ e, bucketStep acc m = .error e ∧ bucketStep acc' m' = .error e) ∨
    (∃ bs bs', List.Forall₂ bucketRel bs bs' ∧
      bucketStep acc m = .ok bs ∧ bucketStep acc' m' = .ok bs') := by
  have hts : pyGetD m "ts" jnull = pyGetD m' "ts" jnull :=
    agreeExcept_getD hm "ts" jnull (by decide) (by decide)
  simp only [bucketStep, ← hts]
  by_cases htr : truthy (pyGetD m "ts" jnull) = true
  · simp only [if_pos htr]
    cases hq : pyFloat (pyGetD m "ts" jnull) with
    | none => exact Or.inr ⟨acc, acc', hacc, rfl, rfl⟩
    | some q =>
      dsimp only
      cases hd : utcDay q with
      | ok d => exact Or.inr ⟨addToBucket acc d m, addToBucket acc' d m',
          addToBucket_rel hm hacc, rfl, rfl⟩
      | error e =>
        cases e with
        | valueError => exact Or.inr ⟨acc, acc', hacc, rfl, rfl⟩
        | typeError => exact Or.inl ⟨.typeError, rfl, rfl⟩
        | attrError => exact Or.inl ⟨.attrError, rfl, rfl⟩
        | osError => exact Or.inl ⟨.osError, rfl, rfl⟩
        | noValidMessages => exact Or.inl ⟨.noValidMessages, rfl, rfl⟩
  · simp only [if_neg htr]
    exact Or.inr ⟨acc, acc', hacc, rfl, rfl⟩

theorem bucketFold_rel : ∀ {ms ms' : List Msg},
    List.Forall₂ agreeExcept ms ms' →
    ∀ {acc acc' : List (ℤ × List Msg)}, List.Forall₂ bucketRel acc acc' →
    (∃ e, List.foldlM bucketStep acc ms = .error e ∧
      List.foldlM bucketStep acc' ms' = .error e) ∨
    (∃ bs bs', List.Forall₂ bucketRel bs bs' ∧
      List.foldlM bucketStep acc ms = .ok bs ∧
      List.foldlM bucketStep acc' ms' = .ok bs') := by
  intro ms ms' hf
  induction hf with
  | nil =>
    intro acc acc' hacc
    exact Or.inr ⟨acc, acc', hacc, rfl, rfl⟩
  | cons hm hms ih =>
    intro acc acc' hacc
    rename_i m m' ms ms'
    rw [List.foldlM_cons, List.foldlM_cons]
    rcases bucketStep_rel hm hacc with ⟨e, h1, h2⟩ | ⟨bs, bs', hrel, h1, h2⟩
    · rw [h1, h2]
      exact Or.inl ⟨e, rfl, rfl⟩
    · rw [h1, h2]
      change (∃ e, List.foldlM bucketStep bs ms = .error e ∧
          List.foldlM bucketStep bs' ms' = .error e) ∨ _
      exact ih hrel

theorem rawTruthyTs_rel : ∀ {ms ms' : List Msg},
    List.Forall₂ agreeExcept ms ms' → rawTruthyTs ms = rawTruthyTs ms' := by
  intro ms ms' hf
  induction hf with
  | nil => rfl
  | cons hm hms ih =>
    rename_i m m' ms ms'
    have hts : pyGetD m "ts" jnull = pyGetD m' "ts" jnull :=
      agreeExcept_getD hm "ts" jnull (by decide) (by decide)
    have htsr : pyGet m "ts" = pyGet m' "ts" :=
      hm.1 "ts" (by decide) (by decide)
    simp only [rawTruthyTs, List.filter_cons] at ih ⊢
    rw [← hts]
    by_cases htr : truthy (pyGetD m "ts" jnull) = true
    · simp only [if_pos htr, List.map_cons]
      rw [ih, htsr]
    · simp only [if_neg htr]
      exact ih

theorem outCounts_rel : ∀ {bs bs' : List (ℤ × List Msg)},
    List.Forall₂ bucketRel bs bs' →
    bs.map (fun b => (dateString b.1, b.2.length))
      = bs'.map (fun b => (dateString b.1, b.2.length)) := by
  intro bs bs' hf
  induction hf with
  | nil => rfl
  | cons hb hbs ih =>
    simp only [List.map_cons, ih, hb.1, hb.2.length_eq]

theorem filesRel_names : ∀ {files files' : List (String × FileContent)},
    filesRel files files' → files.map (·.1) = files'.map (·.1) := by
  intro files files' hf
  induction hf with
  | nil => rfl
  | cons hf hfs ih => simp only [List.map_cons, ih, hf.1]

/-- C9 (amended): for two completed runs on inputs that differ only in the
`source_team` / `user_team` field values of their messages (with matching
hashability, vacuous for string-valued team fields), `users.json`,
`channels.json`, the per-file input counts, the per-date output file names
and counts, and the entire report are identical, because those two fields
feed only the team-candidate set and the selected dominant team id is never
written into any output.  The per-date message FILES themselves, however,
are only identical up to those two fields: each bucket holds the same dates
and pointwise-related messages, and since the messages are dumped verbatim,
a `source_team` difference shows up verbatim in the written file — so the
claim's "every per-date message file is identical" is false, see
`c9_counterexample`. -/
theorem c9_team_fields_influence {enum : List JVal → List JVal}
    {now inputDir : String} {outputZip : Option String}
    {files files' : List (String × FileContent)} {out out' : RunOutput}
    (hrel : filesRel files files')
    (h : runCore enum now inputDir outputZip files = .ok out)
    (h' : runCore enum now inputDir outputZip files' = .ok out') :
    out.usersList = out'.usersList ∧
    out.channel = out'.channel ∧
    out.fileResults = out'.fileResults ∧
    out.outCounts = out'.outCounts ∧
    out.report = out'.report ∧
    List.Forall₂ bucketRel out.buckets out'.buckets := by
  have hLR := loadAll_rel hrel
    (show stRel initState initState from ⟨List.Forall₂.nil, rfl⟩)
  have hst : stRel (loadRun files).1 (loadRun files').1 := hLR.1
  have hinfo : (loadRun files).2 = (loadRun files').2 := hLR.2
  obtain ⟨hmsgs, husers⟩ := hst
  simp only [runCore] at h h'
  have hempEq : (loadRun files').1.messages.isEmpty
      = (loadRun files).1.messages.isEmpty := by
    cases hc : (loadRun files).1.messages <;>
      cases hc' : (loadRun files').1.messages <;>
        rw [hc, hc'] at hmsgs <;> first | rfl | nomatch hmsgs
  by_cases hemp : (loadRun files).1.messages.isEmpty = true
  · rw [if_pos hemp] at h
    exact Except.noConfusion h
  · rw [if_neg hemp] at h
    rw [hempEq, if_neg hemp] at h'
    rcases keyedMessages_rel hmsgs with ⟨hk1, hk2⟩ | ⟨ks, ks', hks, hk1, hk2⟩
    · rw [hk1] at h
      dsimp only at h
      exact Except.noConfusion h
    · rw [hk1] at h
      rw [hk2] at h'
      dsimp only at h h'
      have hsorted := insertionSort_rel hks
      have hsmsgs := f2_map_snd hsorted
      rcases bucketFold_rel hsmsgs
          (show List.Forall₂ bucketRel [] [] from List.Forall₂.nil) with
        ⟨e, hb1, hb2⟩ | ⟨bs, bs', hbrel, hb1, hb2⟩
      · simp only [bucketMessages] at h h'
        rw [hb1] at h
        dsimp only at h
        exact Except.noConfusion h
      · simp only [bucketMessages] at h h'
        rw [hb1] at h
        rw [hb2] at h'
        dsimp only at h h'
        have hmin : pyMinTs ((List.insertionSort (fun a b => a.1 ≤ b.1) ks).map (·.2))
            = pyMinTs ((List.insertionSort (fun a b => a.1 ≤ b.1) ks').map (·.2)) := by
          unfold pyMinTs
          rw [rawTruthyTs_rel hsmsgs]
        rw [← hmin] at h'
        cases hpm : pyMinTs ((List.insertionSort (fun a b => a.1 ≤ b.1) ks).map (·.2)) with
        | error e =>
          rw [hpm] at h
          dsimp only at h
          exact Except.noConfusion h
        | ok minRaw =>
          rw [hpm] at h h'
          dsimp only at h h'
          cases hpf : pyFloat minRaw with
          | none =>
            rw [hpf] at h
            dsimp only at h
            exact Except.noConfusion h
          | some minQ =>
            rw [hpf] at h h'
            dsimp only at h h'
            simp only [Except.ok.injEq] at h h'
            subst h
            subst h'
            refine ⟨?_, ?_, hinfo, outCounts_rel hbrel, ?_, hbrel⟩
            · rw [husers]
            · rw [husers]
            · rw [filesRel_names hrel, hinfo, outCounts_rel hbrel]

/-- A one-file input whose single message carries `source_team` "TA". -/
def c9FilesA : List (String × FileContent) :=
  [("a.json", .list [.map [("type", jstr "message"), ("ts", jstr "100.0"),
    ("source_team", jstr "TA")]])]

/-- The same input with `source_team` "TB" instead. -/
def c9FilesB : List (String × FileContent) :=
  [("a.json", .list [.map [("type", jstr "message"), ("ts", jstr "100.0"),
    ("source_team", jstr "TB")]])]

theorem c9Files_rel : filesRel c9FilesA c9FilesB :=
  List.Forall₂.cons
    ⟨rfl, FileRel.list (List.Forall₂.cons
      (ElemRel.map (agreeExceptB_sound (by decide))) List.Forall₂.nil)⟩
    List.Forall₂.nil

def c9OutA : RunOutput :=
  match runCore id "now" "dir" none c9FilesA with
  | .ok o => o
  | .error _ => ⟨[], ⟨"", "", 0, jnull, false, false, [], "", ""⟩,
      [], [], [], [], jnull⟩

def c9OutB : RunOutput :=
  match runCore id "now" "dir" none c9FilesB with
  | .ok o => o
  | .error _ => ⟨[], ⟨"", "", 0, jnull, false, false, [], "", ""⟩,
      [], [], [], [], jnull⟩

/-- C9 counterexample: the two inputs differ only in a `source_team` value
and both runs complete, yet the per-date message files differ — the bucket
for day 0 (1970-01-01) holds the message verbatim, `source_team`
included, so "every emitted archive entry is identical" fails for the
per-date files. -/
theorem c9_counterexample :
    (runCore id "now" "dir" none c9FilesA = .ok c9OutA) ∧
    (runCore id "now" "dir" none c9FilesB = .ok c9OutB) ∧
    c9OutA.buckets ≠ c9OutB.buckets ∧
    c9OutA.outCounts = c9OutB.outCounts := by
  refine ⟨by decide, by decide, by decide, by decide⟩

/-- Witness for `c9_team_fields_influence` at the concrete related pair
`c9FilesA` / `c9FilesB`. -/
theorem c9_team_fields_influence_witness :
    filesRel c9FilesA c9FilesB ∧
    (runCore id "now" "dir" none c9FilesA = .ok c9OutA) ∧
    (runCore id "now" "dir" none c9FilesB = .ok c9OutB) ∧
    c9OutA.report = c9OutB.report ∧ c9OutA.channel = c9OutB.channel :=
  ⟨c9Files_rel, by decide, by decide,
    (@c9_team_fields_influence id "now" "dir" none c9FilesA c9FilesB c9OutA
      c9OutB c9Files_rel (by decide) (by decide)).2.2.2.2.1,
    (@c9_team_fields_influence id "now" "dir" none c9FilesA c9FilesB c9OutA
      c9OutB c9Files_rel (by decide) (by decide)).2.1⟩

end SlackPkg
